import Mathlib

/-!
Sanae_Filter: the Aho-Corasick sensitive-word filter.

A shallow embedding of `main.go` and `main_white.go`.

* The Go heap of `*ACNode` cells is a list of nodes (an arena); a pointer is an
  index into it, `ac.root` is cell `0`, and the `nil` pointer is `none`.
* A text is the slice `[]rune(text)`: a list of Unicode code points (`Char`),
  and a returned string is read back as its code points, so `string(runes)`
  and the untouched `text` are the same value when nothing was overwritten.
  Go's `int` indices are `Int` in `Position` (no text is long enough to wrap).
* `map[rune]*ACNode` is an association list with unique keys.  The order in
  which `range current.children` visits a map is not fixed by Go, so
  `BuildFailPointer` takes the visiting order as a parameter (`ChildOrder`).
* Loops that follow failure pointers carry fuel; a result `none` stands for a
  run that does not return a value (a nil dereference, or fuel exhausted).
-/

namespace Sanae

/-! ## Data model -/

/-- The Go struct `ACNode`. -/
structure ACNode where
  children : List (Char × Nat)
  fail : Option Nat
  isEnd : Bool
  length : Nat
  deriving DecidableEq, Repr

/-- The Go struct `AhoCorasick`: the heap of its nodes, the root being cell 0. -/
structure AhoCorasick where
  nodes : List ACNode
  deriving DecidableEq, Repr

/-- The Go struct `Position`. -/
structure Position where
  Start : Int
  End : Int
  deriving DecidableEq, Repr

/-- A freshly allocated node `&ACNode{children: make(map[rune]*ACNode)}`. -/
def newNode : ACNode := ⟨[], none, false, 0⟩

/-- The constructor `NewAhoCorasick`. -/
def NewAhoCorasick : AhoCorasick := ⟨[newNode]⟩

/-- Map lookup `m[ch]` in an association list. -/
def mapGet : List (Char × Nat) → Char → Option Nat
  | [], _ => none
  | (k, v) :: rest, ch => if k = ch then some v else mapGet rest ch

/-- The lookup `node.children[ch]`. -/
def childOf (nodes : List ACNode) (n : Nat) (ch : Char) : Option Nat :=
  match nodes[n]? with
  | some nd => mapGet nd.children ch
  | none => none

/-- The field `node.fail`. -/
def failOf (nodes : List ACNode) (n : Nat) : Option Nat :=
  match nodes[n]? with
  | some nd => nd.fail
  | none => none

/-- The field `node.isEnd`. -/
def isEndOf (nodes : List ACNode) (n : Nat) : Bool :=
  match nodes[n]? with
  | some nd => nd.isEnd
  | none => false

/-- The field `node.length`. -/
def lengthOf (nodes : List ACNode) (n : Nat) : Nat :=
  match nodes[n]? with
  | some nd => nd.length
  | none => 0

/-- The field `node.children`. -/
def childrenOf (nodes : List ACNode) (n : Nat) : List (Char × Nat) :=
  match nodes[n]? with
  | some nd => nd.children
  | none => []

/-- An in-place update of the cell at index `n`. -/
def modifyNode (f : ACNode → ACNode) : List ACNode → Nat → List ACNode
  | [], _ => []
  | nd :: rest, 0 => f nd :: rest
  | nd :: rest, n + 1 => nd :: modifyNode f rest n

/-! ## Insert -/

/-- The loop `for _, ch := range word` of `Insert`: returns the heap and the
node reached. -/
def insertLoop (nodes : List ACNode) (node : Nat) : List Char → List ACNode × Nat
  | [] => (nodes, node)
  | ch :: rest =>
    match childOf nodes node ch with
    | some next => insertLoop nodes next rest
    | none =>
      insertLoop
        (modifyNode (fun nd => { nd with children := nd.children ++ [(ch, nodes.length)] })
          nodes node ++ [newNode])
        nodes.length rest

/-- The method `Insert`. -/
def Insert (ac : AhoCorasick) (word : List Char) : AhoCorasick :=
  let r := insertLoop ac.nodes 0 word
  ⟨modifyNode (fun nd => { nd with isEnd := true, length := word.length }) r.1 r.2⟩

/-! ## BuildFailPointer -/

/-- The order in which `range` visits the entries of each node's child map. -/
structure ChildOrder where
  visit : Nat → List (Char × Nat) → List (Char × Nat)
  perm : ∀ n l, (visit n l).Perm l

/-- Visiting every child map in the order in which its keys were added. -/
def insertionOrder : ChildOrder := ⟨fun _ l => l, fun _ _ => List.Perm.refl _⟩

/-- The loop `for fail != nil` of `BuildFailPointer` together with the test
`if fail == nil` after it: the value stored in `child.fail`. -/
def findFail (nodes : List ACNode) (ch : Char) : Nat → Option Nat → Option Nat
  | _, none => some 0
  | 0, some _ => none
  | fuel + 1, some f =>
    match childOf nodes f ch with
    | some next => some next
    | none => findFail nodes ch fuel (failOf nodes f)

/-- The loop `for ch, child := range current.children` of `BuildFailPointer`. -/
def assignChildren (current : Nat) :
    List (Char × Nat) → List ACNode → List Nat → Option (List ACNode × List Nat)
  | [], nodes, queue => some (nodes, queue)
  | (ch, child) :: rest, nodes, queue =>
    if current = 0 then
      assignChildren current rest
        (modifyNode (fun nd => { nd with fail := some 0 }) nodes child) (queue ++ [child])
    else
      match findFail nodes ch nodes.length (failOf nodes current) with
      | none => none
      | some target =>
        assignChildren current rest
          (modifyNode (fun nd => { nd with fail := some target }) nodes child) (queue ++ [child])

/-- The loop `for len(queue) > 0` of `BuildFailPointer`. -/
def bfsLoop (ord : ChildOrder) : Nat → List Nat → List ACNode → Option (List ACNode)
  | _, [], nodes => some nodes
  | 0, _ :: _, _ => none
  | fuel + 1, current :: queue, nodes =>
    match assignChildren current (ord.visit current (childrenOf nodes current)) nodes queue with
    | none => none
    | some r => bfsLoop ord fuel r.2 r.1

/-- The method `BuildFailPointer`. -/
def BuildFailPointer (ord : ChildOrder) (ac : AhoCorasick) : Option AhoCorasick :=
  (bfsLoop ord ac.nodes.length [0] ac.nodes).map AhoCorasick.mk

/-- What `loadWordsIntoAC` does to the automaton: `Insert` every word in order,
then `BuildFailPointer`. -/
def loadWords (ord : ChildOrder) (words : List (List Char)) : Option AhoCorasick :=
  BuildFailPointer ord (words.foldl Insert NewAhoCorasick)

/-! ## The scan -/

/-- The loop `for node != ac.root && node.children[ch] == nil { node = node.fail }`. -/
def followFail (nodes : List ACNode) (ch : Char) : Nat → Option Nat → Option Nat
  | _, none => none
  | fuel, some node =>
    if node ≠ 0 ∧ childOf nodes node ch = none then
      match fuel with
      | 0 => none
      | fuel + 1 => followFail nodes ch fuel (failOf nodes node)
    else some node

/-- The lines 75 to 81 of both files: follow failure links, then take the edge. -/
def advance (nodes : List ACNode) (node : Nat) (ch : Char) : Option Nat :=
  match followFail nodes ch nodes.length (some node) with
  | none => none
  | some n =>
    match childOf nodes n ch with
    | some next => some next
    | none => some n

/-- The loop `for j := 0; j < tmp.length; j++` of the filters, with its guard
`(i - j) >= 0`: `k` iterations remain and `j` is the loop variable. -/
def redactLoop (i : Nat) : Nat → Nat → List Char × Bool → List Char × Bool
  | 0, _, st => st
  | k + 1, j, st =>
    if (i : Int) - (j : Int) ≥ 0 then redactLoop i k (j + 1) (st.1.set (i - j) '~', true)
    else redactLoop i k (j + 1) st

/-- The whitelist test of `FilterWithWhitelist`: the loop over
`whiteListedPositions` that sets `isInWhiteList`. -/
def isInWhiteList (i : Nat) : List Position → Bool
  | [] => false
  | pos :: rest => if (i : Int) ≥ pos.Start ∧ (i : Int) ≤ pos.End then true else isInWhiteList i rest

/-- The loop `for tmp != ac.root` of `MatchPositions`. -/
def matchWalk (nodes : List ACNode) (i : Nat) :
    Nat → Option Nat → List Position → Option (List Position)
  | _, none, _ => none
  | fuel, some tmp, positions =>
    if tmp ≠ 0 then
      match fuel with
      | 0 => none
      | fuel + 1 =>
        matchWalk nodes i fuel (failOf nodes tmp)
          (if isEndOf nodes tmp then
            positions ++ [⟨(i : Int) - (lengthOf nodes tmp : Int) + 1, (i : Int)⟩]
           else positions)
    else some positions

/-- The loop `for i, ch := range runes` of `MatchPositions`; `k` iterations
remain. -/
def matchLoop (nodes : List ACNode) (runes : List Char) :
    Nat → Nat → Nat → List Position → Option (List Position)
  | 0, _, _, positions => some positions
  | k + 1, i, node, positions =>
    match runes[i]? with
    | none => some positions
    | some ch =>
      match advance nodes node ch with
      | none => none
      | some node1 =>
        match matchWalk nodes i nodes.length (some node1) positions with
        | none => none
        | some positions1 => matchLoop nodes runes k (i + 1) node1 positions1

/-- The method `MatchPositions`. -/
def MatchPositions (ac : AhoCorasick) (text : List Char) : Option (List Position) :=
  matchLoop ac.nodes text text.length 0 0 []

/-- The loop `for tmp != ac.root` of `FilterWithWhitelist`. -/
def whiteWalk (nodes : List ACNode) (white : List Position) (i : Nat) :
    Nat → Option Nat → List Char × Bool → Option (List Char × Bool)
  | _, none, _ => none
  | fuel, some tmp, st =>
    if tmp ≠ 0 then
      match fuel with
      | 0 => none
      | fuel + 1 =>
        whiteWalk nodes white i fuel (failOf nodes tmp)
          (if isEndOf nodes tmp then
            (if !isInWhiteList i white then redactLoop i (lengthOf nodes tmp) 0 st else st)
           else st)
    else some st

/-- The loop `for i, ch := range runes` of `FilterWithWhitelist`; the slice is
overwritten while it is ranged over, so `ch` is read from the current slice. -/
def whiteLoop (nodes : List ACNode) (white : List Position) :
    Nat → Nat → Nat → List Char × Bool → Option (List Char × Bool)
  | 0, _, _, st => some st
  | k + 1, i, node, st =>
    match st.1[i]? with
    | none => some st
    | some ch =>
      match advance nodes node ch with
      | none => none
      | some node1 =>
        match whiteWalk nodes white i nodes.length (some node1) st with
        | none => none
        | some st1 => whiteLoop nodes white k (i + 1) node1 st1

/-- The method `FilterWithWhitelist` of `main_white.go`. -/
def FilterWithWhitelist (ac : AhoCorasick) (text : List Char) (white : List Position) :
    Option (List Char) :=
  match whiteLoop ac.nodes white text.length 0 0 (text, false) with
  | none => none
  | some st => if st.2 then some st.1 else some text

/-- The loop `for tmp != ac.root` of `Filter`. -/
def filterWalk (nodes : List ACNode) (i : Nat) :
    Nat → Option Nat → List Char × Bool → Option (List Char × Bool)
  | _, none, _ => none
  | fuel, some tmp, st =>
    if tmp ≠ 0 then
      match fuel with
      | 0 => none
      | fuel + 1 =>
        filterWalk nodes i fuel (failOf nodes tmp)
          (if isEndOf nodes tmp then redactLoop i (lengthOf nodes tmp) 0 st else st)
    else some st

/-- The loop `for i, ch := range runes` of `Filter`. -/
def filterLoop (nodes : List ACNode) :
    Nat → Nat → Nat → List Char × Bool → Option (List Char × Bool)
  | 0, _, _, st => some st
  | k + 1, i, node, st =>
    match st.1[i]? with
    | none => some st
    | some ch =>
      match advance nodes node ch with
      | none => none
      | some node1 =>
        match filterWalk nodes i nodes.length (some node1) st with
        | none => none
        | some st1 => filterLoop nodes k (i + 1) node1 st1

/-- The method `Filter` of `main.go`. -/
def Filter (ac : AhoCorasick) (text : List Char) : Option (List Char) :=
  match filterLoop ac.nodes text.length 0 0 (text, false) with
  | none => none
  | some st => if st.2 then some st.1 else some text

/-- The engine of `main_white.go` as `shenheHandler` runs it:
`ac.FilterWithWhitelist(word, wac.MatchPositions(word))`. -/
def engineFilter (ac wac : AhoCorasick) (text : List Char) : Option (List Char) :=
  match MatchPositions wac text with
  | none => none
  | some white => FilterWithWhitelist ac text white

/-- The whole of `main_white.go`: `main` loads the two word lists and the handler
filters the text with the spans of the whitelist automaton. -/
def engine (ord : ChildOrder) (sensitive whitelist : List (List Char)) (text : List Char) :
    Option (List Char) :=
  match loadWords ord sensitive with
  | none => none
  | some ac =>
    match loadWords ord whitelist with
    | none => none
    | some wac => engineFilter ac wac text

/-- The cell reached from `n` by `k` steps `node = node.fail`. -/
def failChain (nodes : List ACNode) : Nat → Nat → Option Nat
  | 0, n => some n
  | k + 1, n =>
    match failOf nodes n with
    | none => none
    | some m => failChain nodes k m


/-! ## Specification-level notions -/

/-- The shape of a trie over the heap, relative to a labelling of the cells by
the string spelled on the path from the root. -/
structure TrieShape (nodes : List ACNode) (lab : Nat → List Char) : Prop where
  pos : 0 < nodes.length
  root : lab 0 = []
  edge : ∀ n c m, n < nodes.length → mapGet (childrenOf nodes n) c = some m →
    m < nodes.length ∧ lab m = lab n ++ [c] ∧ n < m
  parent : ∀ m, m < nodes.length → m ≠ 0 →
    ∃ n c, n < m ∧ mapGet (childrenOf nodes n) c = some m
  keys : ∀ n, ((childrenOf nodes n).map Prod.fst).Nodup

/-- Two heaps that differ at most in the `fail` fields. -/
def SameShape (a b : List ACNode) : Prop :=
  b.length = a.length ∧ ∀ n, childrenOf b n = childrenOf a n ∧
    isEndOf b n = isEndOf a n ∧ lengthOf b n = lengthOf a n

/-- The trie of the word list `P`: the shape, the pattern-end marks and the
recorded lengths. -/
structure TrieFor (P : List (List Char)) (nodes : List ACNode) (lab : Nat → List Char) :
    Prop where
  shape : TrieShape nodes lab
  ends : ∀ n, n < nodes.length → (isEndOf nodes n = true ↔ lab n ∈ P)
  len : ∀ n, n < nodes.length → isEndOf nodes n = true → lengthOf nodes n = (lab n).length
  word : ∀ w, w ∈ P → ∃ n, n < nodes.length ∧ lab n = w
  pre : ∀ n, n < nodes.length → n ≠ 0 → ∃ w, w ∈ P ∧ lab n <+: w

/-- The cell `t` carries the longest proper suffix of `w` that is a label of the
trie with `N` cells. -/
def LongestProperSuffix (N : Nat) (lab : Nat → List Char) (w : List Char) (t : Nat) : Prop :=
  t < N ∧ lab t <:+ w ∧ (lab t).length < w.length ∧
    ∀ m, m < N → lab m <:+ w → (lab m).length < w.length → (lab m).length ≤ (lab t).length

/-- The failure link of the cell `x` is set, and set to the right cell. -/
def FailOK (nodes : List ACNode) (lab : Nat → List Char) (x : Nat) : Prop :=
  ∃ t, failOf nodes x = some t ∧ LongestProperSuffix nodes.length lab (lab x) t

/-- The invariant of the breadth-first loop of `BuildFailPointer`: the queue is
ordered by depth and spans at most two levels, no queued cell lies below
another, and every cell whose failure link is not yet set lies strictly below a
queued cell. -/
structure BfsInv (nodes : List ACNode) (lab : Nat → List Char) (q : List Nat) : Prop where
  shape : TrieShape nodes lab
  root : failOf nodes 0 = none
  inq : ∀ n, n ∈ q → n < nodes.length
  sorted : q.Pairwise (fun a b => (lab a).length ≤ (lab b).length ∧ ¬ lab a <+: lab b)
  near : ∀ a, a ∈ q → ∀ b, b ∈ q → (lab b).length ≤ (lab a).length + 1
  cover : ∀ x, x < nodes.length → x ≠ 0 →
    FailOK nodes lab x ∨ ∃ n, n ∈ q ∧ lab n <+: lab x ∧ lab n ≠ lab x

/-- The cells at or below a queued cell: the cells the loop has yet to dequeue. -/
def pending (N : Nat) (lab : Nat → List Char) (q : List Nat) : Finset Nat :=
  (Finset.range N).filter (fun x => ∃ n, n ∈ q ∧ lab n <+: lab x)

/-- A built automaton for the word list `P`: the trie of `P` with every failure
link set to the longest proper suffix present in the trie; the root has none. -/
structure Built (P : List (List Char)) (nodes : List ACNode) (lab : Nat → List Char) :
    Prop where
  trie : TrieFor P nodes lab
  root : failOf nodes 0 = none
  fail : ∀ x, x < nodes.length → x ≠ 0 → FailOK nodes lab x

/-- The cell `s` carries the longest suffix of `w` that is a label of the trie. -/
def LongestSuffix (N : Nat) (lab : Nat → List Char) (w : List Char) (s : Nat) : Prop :=
  s < N ∧ lab s <:+ w ∧ ∀ m, m < N → lab m <:+ w → (lab m).length ≤ (lab s).length

/-- The code points `text[Start..End]` of an in-range position spell a word of
`P`: the brute-force notion of an occurrence. -/
def IsOccurrence (P : List (List Char)) (text : List Char) (p : Position) : Prop :=
  0 ≤ p.Start ∧ p.Start ≤ p.End ∧ p.End < (text.length : Int) ∧
    (text.drop p.Start.toNat).take (p.End.toNat + 1 - p.Start.toNat) ∈ P

instance (P : List (List Char)) (text : List Char) (p : Position) :
    Decidable (IsOccurrence P text p) := by
  unfold IsOccurrence; infer_instance


/-- The suppression rule of the Redactor: the occurrence is suppressed if some
whitelist span `{s, e}` has `end >= s and end <= e`. -/
def Suppressed (white : List Position) (p : Position) : Prop :=
  ∃ w, w ∈ white ∧ p.End ≥ w.Start ∧ p.End ≤ w.End

instance (white : List Position) (p : Position) : Decidable (Suppressed white p) := by
  unfold Suppressed; infer_instance

/-- A copy of the code points in which every position from `p.Start` to `p.End`
holds the placeholder; `k` is the index of the head of the list. -/
def overwriteFrom (p : Position) : Nat → List Char → List Char
  | _, [] => []
  | k, c :: cs =>
    (if p.Start ≤ (k : Int) ∧ (k : Int) ≤ p.End then '~' else c) :: overwriteFrom p (k + 1) cs

/-- The Redactor of the two-phase design, from the words of the specification:
on a copy of the text, every occurrence that is not suppressed has the code
points at its positions overwritten with the placeholder. -/
def Redact (text : List Char) (occurrences white : List Position) : List Char :=
  occurrences.foldl
    (fun runes p => if Suppressed white p then runes else overwriteFrom p 0 runes) text

/-- The index `k` lies in an occurrence of the list that is not suppressed. -/
def CoveredBy (white occurrences : List Position) (k : Nat) : Prop :=
  ∃ p, p ∈ occurrences ∧ ¬ Suppressed white p ∧ p.Start ≤ (k : Int) ∧ (k : Int) ≤ p.End

instance (white occurrences : List Position) (k : Nat) :
    Decidable (CoveredBy white occurrences k) := by
  unfold CoveredBy; infer_instance

/-- The state of the fused loop of `FilterWithWhitelist` agrees with the
two-phase design on the occurrences reported so far. -/
def Agree (text : List Char) (white ps : List Position) (st : List Char × Bool) : Prop :=
  st.1 = Redact text ps white ∧ (st.2 = false → st.1 = text)

/-- The index `k` lies in an occurrence of a word of `P` in the text that is not
suppressed by the whitelist spans. -/
def Redacted (P : List (List Char)) (text : List Char) (white : List Position) (k : Nat) :
    Prop :=
  ∃ p, IsOccurrence P text p ∧ ¬ Suppressed white p ∧ p.Start ≤ (k : Int) ∧ (k : Int) ≤ p.End


/-! ## Further notions for the claims on the builder and the handler -/

/-- The cell reached from `n` along the child edges that spell the word. -/
def walk (nodes : List ACNode) : Nat → List Char → Option Nat
  | n, [] => some n
  | n, c :: cs =>
    match childOf nodes n c with
    | none => none
    | some m => walk nodes m cs

/-- Every child pointer of the heap points to a cell of the heap, and the root
exists: what holds of every heap of `*ACNode` cells in Go. -/
def ValidHeap (nodes : List ACNode) : Prop :=
  0 < nodes.length ∧ ∀ n c m, childOf nodes n c = some m → m < nodes.length

/-- What a handler writes to the `http.ResponseWriter`: the status code and the
body. -/
structure Response where
  status : Nat
  body : List Char
  deriving DecidableEq, Repr

/-- The call `http.Error(w, msg, code)`: the code, and the message on a line. -/
def httpError (msg : String) (code : Nat) : Response := ⟨code, msg.toList ++ ['\n']⟩

/-- The handler `shenheHandler` of `main.go`, as a function of the query
parameter `word` (the empty string when the parameter is absent). -/
def shenheHandler (ac : AhoCorasick) (word : List Char) : Option Response :=
  if word = [] then some (httpError "缺少 'word' 参数" 400)
  else if word.length > 3000 then some (httpError "字符数超过最大限制（3000字符）" 400)
  else
    match Filter ac word with
    | none => none
    | some result => some ⟨200, "过滤后的文本：".toList ++ result⟩

/-- The handler `shenheHandler` of `main_white.go`. -/
def shenheHandlerWhite (ac wac : AhoCorasick) (word : List Char) : Option Response :=
  if word = [] then some (httpError "缺少 'word' 参数" 400)
  else if word.length > 3000 then some (httpError "字符数超过最大限制（3000字符）" 400)
  else
    match MatchPositions wac word with
    | none => none
    | some whiteListedPositions =>
      match FilterWithWhitelist ac word whiteListedPositions with
      | none => none
      | some result => some ⟨200, "过滤后的文本：".toList ++ result⟩

/-- The loop `for j := 0; j < tmp.length; j++` of the filters with the guard
`(i - j) >= 0` taken away: the write `runes[i-j] = '~'` stops the run (`none`)
when `i - j` is not an index of the slice. -/
def redactLoopStrict (i : Nat) : Nat → Nat → List Char × Bool → Option (List Char × Bool)
  | 0, _, st => some st
  | k + 1, j, st =>
    if (i : Int) - (j : Int) ≥ 0 ∧ i - j < st.1.length then
      redactLoopStrict i k (j + 1) (st.1.set (i - j) '~', true)
    else none

/-- The loop `for tmp != ac.root` of `FilterWithWhitelist` over the unguarded
redaction loop. -/
def whiteWalkStrict (nodes : List ACNode) (white : List Position) (i : Nat) :
    Nat → Option Nat → List Char × Bool → Option (List Char × Bool)
  | _, none, _ => none
  | fuel, some tmp, st =>
    if tmp ≠ 0 then
      match fuel with
      | 0 => none
      | fuel + 1 =>
        if isEndOf nodes tmp = true ∧ isInWhiteList i white = false then
          match redactLoopStrict i (lengthOf nodes tmp) 0 st with
          | none => none
          | some st1 => whiteWalkStrict nodes white i fuel (failOf nodes tmp) st1
        else whiteWalkStrict nodes white i fuel (failOf nodes tmp) st
    else some st

/-- The loop `for i, ch := range runes` of `FilterWithWhitelist` over the
unguarded redaction loop. -/
def whiteLoopStrict (nodes : List ACNode) (white : List Position) :
    Nat → Nat → Nat → List Char × Bool → Option (List Char × Bool)
  | 0, _, _, st => some st
  | k + 1, i, node, st =>
    match st.1[i]? with
    | none => some st
    | some ch =>
      match advance nodes node ch with
      | none => none
      | some node1 =>
        match whiteWalkStrict nodes white i nodes.length (some node1) st with
        | none => none
        | some st1 => whiteLoopStrict nodes white k (i + 1) node1 st1

/-- The method `FilterWithWhitelist` with the guard `(i - j) >= 0` taken away. -/
def FilterWithWhitelistStrict (ac : AhoCorasick) (text : List Char) (white : List Position) :
    Option (List Char) :=
  match whiteLoopStrict ac.nodes white text.length 0 0 (text, false) with
  | none => none
  | some st => if st.2 then some st.1 else some text

/-- The value of `node` after the first `i` rounds of the loop
`for i, ch := range runes` of the scan. -/
def scanNode (nodes : List ACNode) (runes : List Char) : Nat → Option Nat
  | 0 => some 0
  | i + 1 =>
    match scanNode nodes runes i with
    | none => none
    | some node =>
      match runes[i]? with
      | none => none
      | some ch => advance nodes node ch

/-- The first pass of the engine redacts index `k` of the text: `k` lies in an
occurrence of a sensitive word whose end index is inside no occurrence of a
whitelist word. -/
def EngineRedacts (P Q : List (List Char)) (T : List Char) (k : Nat) : Prop :=
  ∃ p, IsOccurrence P T p ∧
    (¬ ∃ q, IsOccurrence Q T q ∧ p.End ≥ q.Start ∧ p.End ≤ q.End) ∧
    p.Start ≤ (k : Int) ∧ (k : Int) ≤ p.End

/-- The first pass of the engine redacts no index of the range of `r`. -/
def Intact (P Q : List (List Char)) (T : List Char) (r : Position) : Prop :=
  ∀ k : Nat, r.Start ≤ (k : Int) → (k : Int) ≤ r.End → ¬ EngineRedacts P Q T k
theorem getElem?_modifyNode (f : ACNode → ACNode) (l : List ACNode) (n m : Nat) :
    (modifyNode f l n)[m]? = if m = n then (l[m]?).map f else l[m]? := by
  induction l generalizing n m with
  | nil => cases n <;> simp [modifyNode]
  | cons a l ih =>
    cases n with
    | zero => cases m <;> simp [modifyNode]
    | succ n =>
      cases m with
      | zero => simp [modifyNode]
      | succ m => simp [modifyNode, ih]

theorem length_modifyNode (f : ACNode → ACNode) (l : List ACNode) (n : Nat) :
    (modifyNode f l n).length = l.length := by
  induction l generalizing n with
  | nil => cases n <;> simp [modifyNode]
  | cons a l ih => cases n <;> simp [modifyNode, ih]

theorem childOf_eq (nodes : List ACNode) (n : Nat) (c : Char) :
    childOf nodes n c = mapGet (childrenOf nodes n) c := by
  unfold childOf childrenOf
  cases nodes[n]? <;> simp [mapGet]

theorem mapGet_append (l : List (Char × Nat)) (c d : Char) (v : Nat) :
    mapGet (l ++ [(d, v)]) c =
      match mapGet l c with
      | some x => some x
      | none => if d = c then some v else none := by
  induction l with
  | nil => simp [mapGet]
  | cons a l ih =>
    obtain ⟨k, w⟩ := a
    simp only [List.cons_append, mapGet]
    by_cases h : k = c
    · simp [h]
    · simp [h, ih]

theorem mapGet_none_iff (l : List (Char × Nat)) (c : Char) :
    mapGet l c = none ↔ c ∉ l.map Prod.fst := by
  induction l with
  | nil => simp [mapGet]
  | cons a l ih =>
    obtain ⟨k, w⟩ := a
    simp only [mapGet, List.map_cons, List.mem_cons, not_or]
    by_cases h : k = c
    · simp [h]
    · simp [h, ih, Ne.symm h]

theorem mapGet_mem (l : List (Char × Nat)) (c : Char) (v : Nat) (h : mapGet l c = some v) :
    (c, v) ∈ l := by
  induction l with
  | nil => simp [mapGet] at h
  | cons a l ih =>
    obtain ⟨k, w⟩ := a
    simp only [mapGet] at h
    by_cases hk : k = c
    · simp [hk] at h
      simp [hk, h]
    · simp [hk] at h
      exact List.mem_cons_of_mem _ (ih h)

theorem mapGet_of_mem (l : List (Char × Nat)) (c : Char) (v : Nat)
    (hn : (l.map Prod.fst).Nodup) (h : (c, v) ∈ l) : mapGet l c = some v := by
  induction l with
  | nil => simp at h
  | cons a l ih =>
    obtain ⟨k, w⟩ := a
    simp only [List.map_cons, List.nodup_cons] at hn
    simp only [mapGet]
    rcases List.mem_cons.1 h with h | h
    · cases h; simp
    · have : k ≠ c := by
        intro hkc
        apply hn.1
        subst hkc
        exact List.mem_map.2 ⟨(k, v), h, rfl⟩
      simp [this, ih hn.2 h]


/-! ### Field access after an update -/

theorem getElem?_grow (f : ACNode → ACNode) (l : List ACNode) (n m : Nat) (hn : n < l.length) :
    (modifyNode f l n ++ [newNode])[m]? =
      if m = n then (l[m]?).map f else if m = l.length then some newNode else l[m]? := by
  rw [List.getElem?_append, length_modifyNode, getElem?_modifyNode]
  by_cases h1 : m = n
  · subst h1; simp [hn]
  · by_cases h2 : m < l.length
    · have : m ≠ l.length := by omega
      simp [h1, h2, this]
    · by_cases h3 : m = l.length
      · subst h3; simp [h1]
      · have h4 : l.length ≤ m := by omega
        have h5 : 1 ≤ m - l.length := by omega
        simp [h1, h2, h3, List.getElem?_eq_none h4, h5]

theorem childrenOf_grow (l : List ACNode) (n m : Nat) (e : Char × Nat) (hn : n < l.length) :
    childrenOf (modifyNode (fun nd => { nd with children := nd.children ++ [e] }) l n
      ++ [newNode]) m = if m = n then childrenOf l n ++ [e] else childrenOf l m := by
  unfold childrenOf
  rw [getElem?_grow _ _ _ _ hn]
  by_cases h1 : m = n
  · subst h1
    simp [List.getElem?_eq_getElem hn]
  · by_cases h2 : m = l.length
    · subst h2; simp [h1, newNode]
    · simp [h1, h2]

theorem isEndOf_grow (l : List ACNode) (n m : Nat) (e : Char × Nat) (hn : n < l.length) :
    isEndOf (modifyNode (fun nd => { nd with children := nd.children ++ [e] }) l n
      ++ [newNode]) m = isEndOf l m := by
  unfold isEndOf
  rw [getElem?_grow _ _ _ _ hn]
  by_cases h1 : m = n
  · subst h1
    simp [List.getElem?_eq_getElem hn]
  · by_cases h2 : m = l.length
    · subst h2; simp [h1, newNode]
    · simp [h1, h2]

theorem lengthOf_grow (l : List ACNode) (n m : Nat) (e : Char × Nat) (hn : n < l.length) :
    lengthOf (modifyNode (fun nd => { nd with children := nd.children ++ [e] }) l n
      ++ [newNode]) m = lengthOf l m := by
  unfold lengthOf
  rw [getElem?_grow _ _ _ _ hn]
  by_cases h1 : m = n
  · subst h1
    simp [List.getElem?_eq_getElem hn]
  · by_cases h2 : m = l.length
    · subst h2; simp [h1, newNode]
    · simp [h1, h2]

theorem failOf_grow (l : List ACNode) (n m : Nat) (e : Char × Nat) (hn : n < l.length) :
    failOf (modifyNode (fun nd => { nd with children := nd.children ++ [e] }) l n
      ++ [newNode]) m = failOf l m := by
  unfold failOf
  rw [getElem?_grow _ _ _ _ hn]
  by_cases h1 : m = n
  · subst h1
    simp [List.getElem?_eq_getElem hn]
  · by_cases h2 : m = l.length
    · subst h2; simp [h1, newNode]
    · simp [h1, h2]

theorem childrenOf_setFail (l : List ACNode) (n m : Nat) (v : Option Nat) :
    childrenOf (modifyNode (fun nd => { nd with fail := v }) l n) m = childrenOf l m := by
  unfold childrenOf
  rw [getElem?_modifyNode]
  by_cases h1 : m = n
  · subst h1; cases l[m]? <;> simp
  · simp [h1]

theorem isEndOf_setFail (l : List ACNode) (n m : Nat) (v : Option Nat) :
    isEndOf (modifyNode (fun nd => { nd with fail := v }) l n) m = isEndOf l m := by
  unfold isEndOf
  rw [getElem?_modifyNode]
  by_cases h1 : m = n
  · subst h1; cases l[m]? <;> simp
  · simp [h1]

theorem lengthOf_setFail (l : List ACNode) (n m : Nat) (v : Option Nat) :
    lengthOf (modifyNode (fun nd => { nd with fail := v }) l n) m = lengthOf l m := by
  unfold lengthOf
  rw [getElem?_modifyNode]
  by_cases h1 : m = n
  · subst h1; cases l[m]? <;> simp
  · simp [h1]

theorem failOf_setFail (l : List ACNode) (n m : Nat) (v : Option Nat) (hn : n < l.length) :
    failOf (modifyNode (fun nd => { nd with fail := v }) l n) m =
      if m = n then v else failOf l m := by
  unfold failOf
  rw [getElem?_modifyNode]
  by_cases h1 : m = n
  · subst h1; simp [List.getElem?_eq_getElem hn]
  · simp [h1]

theorem childrenOf_setEnd (l : List ACNode) (n m k : Nat) :
    childrenOf (modifyNode (fun nd => { nd with isEnd := true, length := k }) l n) m
      = childrenOf l m := by
  unfold childrenOf
  rw [getElem?_modifyNode]
  by_cases h1 : m = n
  · subst h1; cases l[m]? <;> simp
  · simp [h1]

theorem failOf_setEnd (l : List ACNode) (n m k : Nat) :
    failOf (modifyNode (fun nd => { nd with isEnd := true, length := k }) l n) m
      = failOf l m := by
  unfold failOf
  rw [getElem?_modifyNode]
  by_cases h1 : m = n
  · subst h1; cases l[m]? <;> simp
  · simp [h1]

theorem isEndOf_setEnd (l : List ACNode) (n m k : Nat) (hn : n < l.length) :
    isEndOf (modifyNode (fun nd => { nd with isEnd := true, length := k }) l n) m
      = if m = n then true else isEndOf l m := by
  unfold isEndOf
  rw [getElem?_modifyNode]
  by_cases h1 : m = n
  · subst h1; simp [List.getElem?_eq_getElem hn]
  · simp [h1]

theorem lengthOf_setEnd (l : List ACNode) (n m k : Nat) (hn : n < l.length) :
    lengthOf (modifyNode (fun nd => { nd with isEnd := true, length := k }) l n) m
      = if m = n then k else lengthOf l m := by
  unfold lengthOf
  rw [getElem?_modifyNode]
  by_cases h1 : m = n
  · subst h1; simp [List.getElem?_eq_getElem hn]
  · simp [h1]

theorem childrenOf_out (l : List ACNode) (n : Nat) (h : l.length ≤ n) : childrenOf l n = [] := by
  unfold childrenOf; simp [List.getElem?_eq_none h]

theorem isEndOf_out (l : List ACNode) (n : Nat) (h : l.length ≤ n) : isEndOf l n = false := by
  unfold isEndOf; simp [List.getElem?_eq_none h]

/-! ### The trie shape: consequences -/

theorem TrieShape.lab_ne_nil {nodes : List ACNode} {lab : Nat → List Char}
    (h : TrieShape nodes lab) {m : Nat} (hm : m < nodes.length) (h0 : m ≠ 0) : lab m ≠ [] := by
  obtain ⟨n, c, hnm, hc⟩ := h.parent m hm h0
  have := (h.edge n c m (by omega) hc).2.1
  rw [this]; simp

theorem TrieShape.inj {nodes : List ACNode} {lab : Nat → List Char} (h : TrieShape nodes lab) :
    ∀ k n m, (lab n).length = k → n < nodes.length → m < nodes.length → lab n = lab m → n = m := by
  intro k
  induction k with
  | zero =>
    intro n m hk hn hm hlab
    have h1 : lab n = [] := List.length_eq_zero.1 hk
    have h2 : lab m = [] := hlab ▸ h1
    have hn0 : n = 0 := by
      by_contra hne; exact h.lab_ne_nil hn hne h1
    have hm0 : m = 0 := by
      by_contra hne; exact h.lab_ne_nil hm hne h2
    omega
  | succ k ih =>
    intro n m hk hn hm hlab
    have hn0 : n ≠ 0 := by
      intro h0; subst h0; rw [h.root] at hk; simp at hk
    have hm0 : m ≠ 0 := by
      intro h0; subst h0; rw [hlab, h.root] at hk; simp at hk
    obtain ⟨n1, c1, hn1, hc1⟩ := h.parent n hn hn0
    obtain ⟨m1, c2, hm1, hc2⟩ := h.parent m hm hm0
    have e1 := (h.edge n1 c1 n (by omega) hc1).2.1
    have e2 := (h.edge m1 c2 m (by omega) hc2).2.1
    rw [e1, e2] at hlab
    have hh := List.append_inj' hlab rfl
    have hc : c1 = c2 := by simpa using hh.2
    have hl : (lab n1).length = k := by
      rw [e1] at hk; simpa using hk
    have := ih n1 m1 hl (by omega) (by omega) hh.1
    subst this; subst hc
    rw [hc1] at hc2
    exact Option.some.inj hc2

theorem TrieShape.injective {nodes : List ACNode} {lab : Nat → List Char}
    (h : TrieShape nodes lab) {n m : Nat} (hn : n < nodes.length) (hm : m < nodes.length)
    (hlab : lab n = lab m) : n = m :=
  h.inj _ n m rfl hn hm hlab

/-- The node whose label extends the label of `n` by `c` is the `c`-child of `n`. -/
theorem TrieShape.child_of_lab {nodes : List ACNode} {lab : Nat → List Char}
    (h : TrieShape nodes lab) {n m : Nat} {c : Char} (hn : n < nodes.length)
    (hm : m < nodes.length) (hlab : lab m = lab n ++ [c]) :
    mapGet (childrenOf nodes n) c = some m := by
  have hm0 : m ≠ 0 := by
    intro h0; subst h0; rw [h.root] at hlab; simp at hlab
  obtain ⟨n1, c1, hn1, hc1⟩ := h.parent m hm hm0
  have e1 := (h.edge n1 c1 m (by omega) hc1).2.1
  rw [e1] at hlab
  have hh := List.append_inj' hlab rfl
  have hc : c1 = c := by simpa using hh.2
  have := h.injective (by omega) hn hh.1
  subst this; subst hc
  exact hc1

/-- Labels are closed under prefixes. -/
theorem TrieShape.prefix_closed {nodes : List ACNode} {lab : Nat → List Char}
    (h : TrieShape nodes lab) :
    ∀ (v u : List Char) (m : Nat), m < nodes.length → lab m = u ++ v →
      ∃ n, n < nodes.length ∧ lab n = u := by
  intro v
  induction v using List.reverseRecOn with
  | nil => intro u m hm hl; exact ⟨m, hm, by simpa using hl⟩
  | append_singleton v c ih =>
    intro u m hm hl
    have hm0 : m ≠ 0 := by
      intro h0; subst h0; rw [h.root] at hl
      have := congrArg List.length hl
      simp at this
      omega
    obtain ⟨n1, c1, hn1, hc1⟩ := h.parent m hm hm0
    have e1 := (h.edge n1 c1 m (by omega) hc1).2.1
    rw [e1, ← List.append_assoc] at hl
    have hh := List.append_inj' hl rfl
    exact ih u n1 (by omega) hh.1

theorem TrieShape.depth_le {nodes : List ACNode} {lab : Nat → List Char}
    (h : TrieShape nodes lab) : ∀ m, m < nodes.length → (lab m).length ≤ m := by
  intro m
  induction m using Nat.strong_induction_on with
  | _ m ih =>
    intro hm
    by_cases h0 : m = 0
    · subst h0; rw [h.root]; simp
    · obtain ⟨n1, c1, hn1, hc1⟩ := h.parent m hm h0
      have e1 := (h.edge n1 c1 m (by omega) hc1).2.1
      have := ih n1 hn1 (by omega)
      rw [e1]; simp; omega

theorem SameShape.refl (a : List ACNode) : SameShape a a := ⟨rfl, fun _ => ⟨rfl, rfl, rfl⟩⟩

theorem SameShape.trans {a b c : List ACNode} (h1 : SameShape a b) (h2 : SameShape b c) :
    SameShape a c :=
  ⟨h2.1.trans h1.1, fun n =>
    ⟨(h2.2 n).1.trans (h1.2 n).1, (h2.2 n).2.1.trans (h1.2 n).2.1,
      (h2.2 n).2.2.trans (h1.2 n).2.2⟩⟩

theorem SameShape.setFail (l : List ACNode) (n : Nat) (v : Option Nat) :
    SameShape l (modifyNode (fun nd => { nd with fail := v }) l n) :=
  ⟨length_modifyNode _ _ _, fun m =>
    ⟨childrenOf_setFail l n m v, isEndOf_setFail l n m v, lengthOf_setFail l n m v⟩⟩

theorem TrieShape.of_sameShape {a b : List ACNode} {lab : Nat → List Char}
    (h : TrieShape a lab) (hs : SameShape a b) : TrieShape b lab where
  pos := by rw [hs.1]; exact h.pos
  root := h.root
  edge := by
    intro n c m hn hc
    rw [hs.1] at hn ⊢
    rw [(hs.2 n).1] at hc
    exact h.edge n c m hn hc
  parent := by
    intro m hm h0
    rw [hs.1] at hm
    obtain ⟨n, c, hnm, hc⟩ := h.parent m hm h0
    exact ⟨n, c, hnm, by rw [(hs.2 n).1]; exact hc⟩
  keys := by
    intro n; rw [(hs.2 n).1]; exact h.keys n

/-! ### Insert keeps the trie shape -/

theorem TrieShape.grow {nodes : List ACNode} {lab : Nat → List Char} (h : TrieShape nodes lab)
    {node : Nat} {ch : Char} (hn : node < nodes.length)
    (hc : mapGet (childrenOf nodes node) ch = none) :
    TrieShape
      (modifyNode (fun nd => { nd with children := nd.children ++ [(ch, nodes.length)] })
        nodes node ++ [newNode])
      (fun k => if k = nodes.length then lab node ++ [ch] else lab k) where
  pos := by simp [length_modifyNode]
  root := by
    have := h.pos
    have h0 : (0 : Nat) ≠ nodes.length := by omega
    simp only [h0, if_false]; exact h.root
  edge := by
    intro n c m hlt hm
    simp only [List.length_append, length_modifyNode, List.length_singleton] at hlt ⊢
    rw [childrenOf_grow _ _ _ _ hn] at hm
    have hnode : node ≠ nodes.length := by omega
    by_cases h1 : n = node
    · subst h1
      simp only [if_true] at hm
      rw [mapGet_append] at hm
      cases hold : mapGet (childrenOf nodes n) c with
      | some x =>
        rw [hold] at hm
        have hx : x = m := by simpa using hm
        subst hx
        obtain ⟨e1, e2, e3⟩ := h.edge n c x hn hold
        have hxN : x ≠ nodes.length := by omega
        simp only [hxN, hnode, if_false]
        exact ⟨by omega, e2, e3⟩
      | none =>
        rw [hold] at hm
        by_cases hcc : ch = c
        · subst hcc
          have hx : nodes.length = m := by simpa using hm
          subst hx
          refine ⟨by omega, ?_, hn⟩
          simp [hnode]
        · simp [hcc] at hm
    · simp only [h1, if_false] at hm
      by_cases h2 : n < nodes.length
      · obtain ⟨e1, e2, e3⟩ := h.edge n c m h2 hm
        have hxN : m ≠ nodes.length := by omega
        have hnN : n ≠ nodes.length := by omega
        simp only [hxN, hnN, if_false]
        exact ⟨by omega, e2, e3⟩
      · rw [childrenOf_out _ _ (by omega)] at hm
        simp [mapGet] at hm
  parent := by
    intro m hlt h0
    simp only [List.length_append, length_modifyNode, List.length_singleton] at hlt
    by_cases h1 : m = nodes.length
    · subst h1
      refine ⟨node, ch, hn, ?_⟩
      rw [childrenOf_grow _ _ _ _ hn]
      simp only [if_true]
      rw [mapGet_append, hc]
      simp
    · obtain ⟨n, c, hnm, hcm⟩ := h.parent m (by omega) h0
      refine ⟨n, c, hnm, ?_⟩
      rw [childrenOf_grow _ _ _ _ hn]
      by_cases h2 : n = node
      · subst h2
        simp only [if_true]
        rw [mapGet_append, hcm]
      · simp only [h2, if_false]
        exact hcm
  keys := by
    intro n
    rw [childrenOf_grow _ _ _ _ hn]
    by_cases h1 : n = node
    · subst h1
      simp only [if_true, List.map_append, List.map_cons, List.map_nil]
      rw [List.nodup_append]
      refine ⟨h.keys n, by simp, ?_⟩
      intro a ha hb
      have : a = ch := by simpa using hb
      subst this
      exact (mapGet_none_iff _ _).1 hc ha
    · simp only [h1, if_false]
      exact h.keys n

/-- What the descent of `Insert` does to a trie. -/
theorem insertLoop_spec (w : List Char) :
    ∀ (nodes : List ACNode) (node : Nat) (lab : Nat → List Char),
      TrieShape nodes lab → node < nodes.length → (∀ n, failOf nodes n = none) →
      ∃ lab1, TrieShape (insertLoop nodes node w).1 lab1 ∧
        (insertLoop nodes node w).2 < (insertLoop nodes node w).1.length ∧
        lab1 (insertLoop nodes node w).2 = lab node ++ w ∧
        nodes.length ≤ (insertLoop nodes node w).1.length ∧
        (∀ n, n < nodes.length → lab1 n = lab n) ∧
        (∀ n, isEndOf (insertLoop nodes node w).1 n = isEndOf nodes n) ∧
        (∀ n, lengthOf (insertLoop nodes node w).1 n = lengthOf nodes n) ∧
        (∀ n, failOf (insertLoop nodes node w).1 n = none) ∧
        (∀ n, nodes.length ≤ n → n < (insertLoop nodes node w).1.length →
          ∃ v, v <+: w ∧ lab1 n = lab node ++ v) := by
  induction w with
  | nil =>
    intro nodes node lab h hn hf
    exact ⟨lab, h, hn, (List.append_nil _).symm, Nat.le_refl _, fun _ _ => rfl, fun _ => rfl,
      fun _ => rfl, hf, fun n h1 h2 => absurd h2 (Nat.not_lt.2 h1)⟩
  | cons ch rest ih =>
    intro nodes node lab h hn hf
    simp only [insertLoop]
    rw [childOf_eq]
    cases hc : mapGet (childrenOf nodes node) ch with
    | some next =>
      simp only
      obtain ⟨e1, e2, _⟩ := h.edge node ch next hn hc
      obtain ⟨lab1, a1, a2, a3, a4, a5, a6, a7, a8, a9⟩ := ih nodes next lab h e1 hf
      refine ⟨lab1, a1, a2, ?_, a4, a5, a6, a7, a8, ?_⟩
      · rw [a3, e2]; simp
      · intro n h1 h2
        obtain ⟨v, hv, hl⟩ := a9 n h1 h2
        refine ⟨ch :: v, ?_, ?_⟩
        · exact List.cons_prefix_cons.2 ⟨rfl, hv⟩
        · rw [hl, e2]; simp
    | none =>
      simp only
      have hg := h.grow hn hc
      have hlen : (modifyNode (fun nd => { nd with children := nd.children ++ [(ch, nodes.length)] })
          nodes node ++ [newNode]).length = nodes.length + 1 := by
        simp [length_modifyNode]
      obtain ⟨lab1, a1, a2, a3, a4, a5, a6, a7, a8, a9⟩ :=
        ih _ nodes.length _ hg (by rw [hlen]; omega)
          (by intro n; rw [failOf_grow _ _ _ _ hn]; exact hf n)
      rw [hlen] at a4 a5 a9
      refine ⟨lab1, a1, a2, ?_, by omega, ?_, ?_, ?_, a8, ?_⟩
      · rw [a3]; simp
      · intro n hlt
        rw [a5 n (by omega)]
        have : n ≠ nodes.length := by omega
        simp [this]
      · intro n; rw [a6, isEndOf_grow _ _ _ _ hn]
      · intro n; rw [a7, lengthOf_grow _ _ _ _ hn]
      · intro n h1 h2
        by_cases hN : n = nodes.length
        · subst hN
          refine ⟨[ch], ?_, ?_⟩
          · exact List.cons_prefix_cons.2 ⟨rfl, List.nil_prefix⟩
          · rw [a5 _ (by omega)]; simp
        · obtain ⟨v, hv, hl⟩ := a9 n (by omega) h2
          refine ⟨ch :: v, ?_, ?_⟩
          · exact List.cons_prefix_cons.2 ⟨rfl, hv⟩
          · rw [hl]; simp

theorem TrieShape.congr_children {a b : List ACNode} {lab : Nat → List Char}
    (h : TrieShape a lab) (hl : b.length = a.length)
    (hs : ∀ n, childrenOf b n = childrenOf a n) : TrieShape b lab where
  pos := by rw [hl]; exact h.pos
  root := h.root
  edge := by
    intro n c m hn hc
    rw [hl] at hn ⊢
    rw [hs n] at hc
    exact h.edge n c m hn hc
  parent := by
    intro m hm h0
    rw [hl] at hm
    obtain ⟨n, c, hnm, hc⟩ := h.parent m hm h0
    exact ⟨n, c, hnm, by rw [hs n]; exact hc⟩
  keys := by
    intro n; rw [hs n]; exact h.keys n

theorem TrieFor.insert {P : List (List Char)} {nodes : List ACNode} {lab : Nat → List Char}
    (h : TrieFor P nodes lab) (hf : ∀ n, failOf nodes n = none) (w : List Char) :
    ∃ lab1, TrieFor (P ++ [w]) (Insert ⟨nodes⟩ w).nodes lab1 ∧
      ∀ n, failOf (Insert ⟨nodes⟩ w).nodes n = none := by
  obtain ⟨lab1, a1, a2, a3, a4, a5, a6, a7, a8, a9⟩ :=
    insertLoop_spec w nodes 0 lab h.shape h.shape.pos hf
  rw [h.shape.root, List.nil_append] at a3
  simp only [Insert]
  have hlen := length_modifyNode (fun nd => { nd with isEnd := true, length := w.length })
    (insertLoop nodes 0 w).1 (insertLoop nodes 0 w).2
  have hin : ∀ n, isEndOf nodes n = true → n < nodes.length := by
    intro n hn
    by_contra hge
    rw [isEndOf_out _ _ (by omega)] at hn
    exact Bool.noConfusion hn
  refine ⟨lab1, ⟨a1.congr_children hlen (fun n => childrenOf_setEnd _ _ _ _), ?_, ?_, ?_, ?_⟩, ?_⟩
  · intro n hn
    rw [hlen] at hn
    rw [isEndOf_setEnd _ _ _ _ a2, a6]
    constructor
    · intro ht
      by_cases h1 : n = (insertLoop nodes 0 w).2
      · subst h1; rw [a3]; simp
      · simp only [h1, if_false] at ht
        have hlt := hin n ht
        rw [a5 n hlt]
        exact List.mem_append_left _ ((h.ends n hlt).1 ht)
    · intro hm
      rcases List.mem_append.1 hm with hm | hm
      · obtain ⟨n0, hn0, hl0⟩ := h.word _ hm
        have : n = n0 := a1.injective hn (by omega) (by rw [a5 n0 hn0, hl0])
        subst this
        have : isEndOf nodes n = true := (h.ends n hn0).2 (by rw [← a5 n hn0]; exact hm)
        simp [this]
      · have hw : lab1 n = w := by simpa using hm
        have : n = (insertLoop nodes 0 w).2 := a1.injective hn a2 (by rw [hw, a3])
        simp [this]
  · intro n hn hend
    rw [hlen] at hn
    rw [isEndOf_setEnd _ _ _ _ a2, a6] at hend
    rw [lengthOf_setEnd _ _ _ _ a2, a7]
    by_cases h1 : n = (insertLoop nodes 0 w).2
    · subst h1; simp [a3]
    · simp only [h1, if_false] at hend ⊢
      have hlt := hin n hend
      rw [a5 n hlt]
      exact h.len n hlt hend
  · intro w0 hw0
    rw [hlen]
    rcases List.mem_append.1 hw0 with hm | hm
    · obtain ⟨n0, hn0, hl0⟩ := h.word _ hm
      exact ⟨n0, by omega, by rw [a5 n0 hn0, hl0]⟩
    · have hw : w0 = w := by simpa using hm
      subst hw
      exact ⟨_, a2, a3⟩
  · intro n hn h0
    rw [hlen] at hn
    by_cases hlt : n < nodes.length
    · obtain ⟨w0, hw0, hp⟩ := h.pre n hlt h0
      exact ⟨w0, List.mem_append_left _ hw0, by rw [a5 n hlt]; exact hp⟩
    · obtain ⟨v, hv, hl⟩ := a9 n (by omega) hn
      refine ⟨w, by simp, ?_⟩
      rw [hl, h.shape.root]
      simpa using hv
  · intro n
    rw [failOf_setEnd]
    exact a8 n

theorem trieFor_new : TrieFor [] NewAhoCorasick.nodes (fun _ => []) where
  shape :=
    { pos := by simp [NewAhoCorasick]
      root := rfl
      edge := by
        intro n c m hn hc
        have : n = 0 := by simpa [NewAhoCorasick] using hn
        subst this
        simp [NewAhoCorasick, childrenOf, newNode, mapGet] at hc
      parent := by
        intro m hm h0
        have : m = 0 := by simpa [NewAhoCorasick] using hm
        exact absurd this h0
      keys := by
        intro n
        cases n with
        | zero => simp [NewAhoCorasick, childrenOf, newNode]
        | succ n => simp [NewAhoCorasick, childrenOf] }
  ends := by
    intro n hn
    have : n = 0 := by simpa [NewAhoCorasick] using hn
    subst this
    simp [NewAhoCorasick, isEndOf, newNode]
  len := by
    intro n hn he
    have : n = 0 := by simpa [NewAhoCorasick] using hn
    subst this
    simp [NewAhoCorasick, isEndOf, newNode] at he
  word := by intro w hw; simp at hw
  pre := by
    intro n hn h0
    have : n = 0 := by simpa [NewAhoCorasick] using hn
    exact absurd this h0

theorem failOf_new (n : Nat) : failOf NewAhoCorasick.nodes n = none := by
  cases n with
  | zero => simp [NewAhoCorasick, failOf, newNode]
  | succ n => simp [NewAhoCorasick, failOf]

theorem trieFor_foldl (words : List (List Char)) :
    ∀ (P : List (List Char)) (ac : AhoCorasick) (lab : Nat → List Char),
      TrieFor P ac.nodes lab → (∀ n, failOf ac.nodes n = none) →
      ∃ lab1, TrieFor (P ++ words) (words.foldl Insert ac).nodes lab1 ∧
        ∀ n, failOf (words.foldl Insert ac).nodes n = none := by
  induction words with
  | nil =>
    intro P ac lab h hf
    exact ⟨lab, by simpa using h, hf⟩
  | cons w rest ih =>
    intro P ac lab h hf
    obtain ⟨lab1, b1, b2⟩ := h.insert hf w
    obtain ⟨lab2, c1, c2⟩ := ih (P ++ [w]) (Insert ac w) lab1 b1 b2
    refine ⟨lab2, ?_, c2⟩
    simpa using c1

/-- After the inserts of `loadWords` the heap is the trie of the word list. -/
theorem trieFor_words (words : List (List Char)) :
    ∃ lab, TrieFor words (words.foldl Insert NewAhoCorasick).nodes lab ∧
      ∀ n, failOf (words.foldl Insert NewAhoCorasick).nodes n = none := by
  simpa using trieFor_foldl words [] NewAhoCorasick _ trieFor_new failOf_new

/-! ### The failure links -/

/-- A non-empty label that is a suffix of `u ++ [ch]` is the `ch`-child of a
cell whose label is a suffix of `u`. -/
theorem TrieShape.cand_of_suffix {nodes : List ACNode} {lab : Nat → List Char}
    (h : TrieShape nodes lab) {u : List Char} {ch : Char} {m : Nat} (hm : m < nodes.length)
    (hs : lab m <:+ u ++ [ch]) (hne : lab m ≠ []) :
    ∃ n, n < nodes.length ∧ lab n <:+ u ∧ lab m = lab n ++ [ch] ∧
      mapGet (childrenOf nodes n) ch = some m := by
  rcases List.suffix_concat_iff.1 hs with h0 | ⟨v, hv, hvu⟩
  · exact absurd h0 hne
  · obtain ⟨n, hn, hl⟩ := h.prefix_closed [ch] v m hm hv
    refine ⟨n, hn, by rw [hl]; exact hvu, by rw [hl]; exact hv, ?_⟩
    exact h.child_of_lab hn hm (by rw [hl]; exact hv)

theorem suffix_snoc {a b : List Char} (h : a <:+ b) (c : Char) : a ++ [c] <:+ b ++ [c] := by
  obtain ⟨t, ht⟩ := h
  exact ⟨t, by rw [← ht, List.append_assoc]⟩

/-- The root is the target when no proper suffix of `u` has a `ch`-child. -/
theorem lps_root {nodes : List ACNode} {lab : Nat → List Char} (h : TrieShape nodes lab)
    (u : List Char) (ch : Char)
    (hnone : ∀ m, m < nodes.length → lab m <:+ u → (lab m).length < u.length →
      mapGet (childrenOf nodes m) ch = none) :
    LongestProperSuffix nodes.length lab (u ++ [ch]) 0 := by
  refine ⟨h.pos, by rw [h.root]; exact List.nil_suffix, by rw [h.root]; simp, ?_⟩
  intro m hm hs hlt
  by_cases hne : lab m = []
  · rw [hne, h.root]
  · obtain ⟨n, hn, hsn, hl, hc⟩ := h.cand_of_suffix hm hs hne
    have hlen : (lab n).length < u.length := by
      rw [hl] at hlt; simp at hlt; omega
    rw [hnone n hn hsn hlen] at hc
    exact Option.noConfusion hc

/-- The child found on the chain is the target. -/
theorem lps_child {nodes : List ACNode} {lab : Nat → List Char} (h : TrieShape nodes lab)
    (u : List Char) (ch : Char) (f next : Nat) (hf : f < nodes.length) (hsuf : lab f <:+ u)
    (hlt : (lab f).length < u.length) (hc : mapGet (childrenOf nodes f) ch = some next)
    (hmax : ∀ m, m < nodes.length → lab m <:+ u → (lab m).length < u.length →
      mapGet (childrenOf nodes m) ch ≠ none → (lab m).length ≤ (lab f).length) :
    LongestProperSuffix nodes.length lab (u ++ [ch]) next := by
  obtain ⟨e1, e2, _⟩ := h.edge f ch next hf hc
  refine ⟨e1, by rw [e2]; exact suffix_snoc hsuf ch, by rw [e2]; simp; omega, ?_⟩
  intro m hm hs hl
  by_cases hne : lab m = []
  · rw [hne]; simp
  · obtain ⟨n, hn, hsn, hlm, hcn⟩ := h.cand_of_suffix hm hs hne
    have hlen : (lab n).length < u.length := by
      rw [hlm] at hl; simp at hl; omega
    have := hmax n hn hsn hlen (by rw [hcn]; simp)
    rw [hlm, e2]; simp; omega

theorem findFail_spec {nodes : List ACNode} {lab : Nat → List Char} (h : TrieShape nodes lab)
    (h0 : failOf nodes 0 = none) (u : List Char) (ch : Char)
    (hok : ∀ x, x < nodes.length → x ≠ 0 → (lab x).length < u.length → FailOK nodes lab x) :
    ∀ (fuel f : Nat), f < nodes.length → lab f <:+ u → (lab f).length < u.length →
      (lab f).length < fuel →
      (∀ m, m < nodes.length → lab m <:+ u → (lab m).length < u.length →
        mapGet (childrenOf nodes m) ch ≠ none → (lab m).length ≤ (lab f).length) →
      ∃ t, findFail nodes ch fuel (some f) = some t ∧
        LongestProperSuffix nodes.length lab (u ++ [ch]) t := by
  intro fuel
  induction fuel with
  | zero => intro f _ _ _ hfu; exact absurd hfu (Nat.not_lt_zero _)
  | succ fuel ih =>
    intro f hf hsuf hlt hfu hmax
    simp only [findFail]
    rw [childOf_eq]
    cases hc : mapGet (childrenOf nodes f) ch with
    | some next =>
      exact ⟨next, rfl, lps_child h u ch f next hf hsuf hlt hc hmax⟩
    | none =>
      simp only
      -- every candidate is a proper suffix of the label of `f`
      have hshort : ∀ m, m < nodes.length → lab m <:+ u → (lab m).length < u.length →
          mapGet (childrenOf nodes m) ch ≠ none →
          lab m <:+ lab f ∧ (lab m).length < (lab f).length := by
        intro m hm hs hl hcm
        have hle := hmax m hm hs hl hcm
        have hsf : lab m <:+ lab f := List.suffix_of_suffix_length_le hs hsuf hle
        refine ⟨hsf, ?_⟩
        by_contra hge
        have heq : lab m = lab f := hsf.eq_of_length (by omega)
        have : m = f := h.injective hm hf heq
        subst this
        exact hcm hc
      by_cases hf0 : f = 0
      · subst hf0
        rw [h0]
        refine ⟨0, by simp [findFail], lps_root h u ch ?_⟩
        intro m hm hs hl
        by_contra hcm
        have := (hshort m hm hs hl hcm).2
        rw [h.root] at this
        simp at this
      · obtain ⟨t, ht, t1, t2, t3, t4⟩ := hok f hf hf0 hlt
        rw [ht]
        apply ih t t1 (t2.trans hsuf) (by omega) (by omega)
        intro m hm hs hl hcm
        obtain ⟨s1, s2⟩ := hshort m hm hs hl hcm
        exact t4 m hm s1 s2

theorem failOK_setFail {nodes : List ACNode} {lab : Nat → List Char} {child t : Nat}
    (hc : child < nodes.length) (ht : LongestProperSuffix nodes.length lab (lab child) t)
    (x : Nat) (hx : FailOK nodes lab x ∨ x = child) :
    FailOK (modifyNode (fun nd => { nd with fail := some t }) nodes child) lab x := by
  unfold FailOK
  rw [length_modifyNode, failOf_setFail _ _ _ _ hc]
  by_cases h1 : x = child
  · subst h1
    exact ⟨t, by simp, ht⟩
  · rcases hx with hx | hx
    · simpa [h1] using hx
    · exact absurd hx h1

/-- The loop over the children of `current` sets the failure link of each of
them to the right cell and appends them to the queue. -/
theorem assignChildren_spec {lab : Nat → List Char} (cur : Nat) :
    ∀ (ks : List (Char × Nat)) (nodes : List ACNode) (queue : List Nat),
      TrieShape nodes lab → cur < nodes.length → failOf nodes 0 = none →
      (cur ≠ 0 → ∀ x, x < nodes.length → x ≠ 0 → (lab x).length ≤ (lab cur).length →
        FailOK nodes lab x) →
      (∀ c m, (c, m) ∈ ks → mapGet (childrenOf nodes cur) c = some m) →
      ∃ nodes1, assignChildren cur ks nodes queue = some (nodes1, queue ++ ks.map Prod.snd) ∧
        SameShape nodes nodes1 ∧ failOf nodes1 0 = none ∧
        (∀ x, FailOK nodes lab x → FailOK nodes1 lab x) ∧
        (∀ c m, (c, m) ∈ ks → FailOK nodes1 lab m) := by
  intro ks
  induction ks with
  | nil =>
    intro nodes queue h hcur h0 hok hks
    exact ⟨nodes, by simp [assignChildren], SameShape.refl _, h0, fun _ hx => hx,
      fun c m hm => absurd hm (List.not_mem_nil _)⟩
  | cons k rest ih =>
    intro nodes queue h hcur h0 hok hks
    obtain ⟨ch, child⟩ := k
    have hedge := hks ch child (List.mem_cons_self _ _)
    obtain ⟨e1, e2, e3⟩ := h.edge cur ch child hcur hedge
    have hchild0 : child ≠ 0 := by omega
    -- the value stored in `child.fail`
    have htarget : ∃ t, LongestProperSuffix nodes.length lab (lab child) t ∧
        assignChildren cur ((ch, child) :: rest) nodes queue =
          assignChildren cur rest (modifyNode (fun nd => { nd with fail := some t }) nodes child)
            (queue ++ [child]) := by
      by_cases hc0 : cur = 0
      · subst hc0
        refine ⟨0, ?_, by simp [assignChildren]⟩
        rw [e2]
        apply lps_root h
        intro m _ _ hl
        rw [h.root] at hl
        exact absurd hl (Nat.not_lt_zero _)
      · obtain ⟨t, ht, t1, t2, t3, t4⟩ := hok hc0 cur hcur hc0 (Nat.le_refl _)
        have hd := h.depth_le t t1
        obtain ⟨tg, hfind, hlps⟩ := findFail_spec h h0 (lab cur) ch
          (fun x hx hx0 hl => hok hc0 x hx hx0 (Nat.le_of_lt hl))
          nodes.length t t1 t2 t3 (by omega)
          (fun m hm hs hl _ => t4 m hm hs hl)
        refine ⟨tg, by rw [e2]; exact hlps, ?_⟩
        simp only [assignChildren, hc0, if_false]
        rw [ht, hfind]
    obtain ⟨t, hlps, hstep⟩ := htarget
    have hsame := SameShape.setFail nodes child (some t)
    have hmono : ∀ x, FailOK nodes lab x →
        FailOK (modifyNode (fun nd => { nd with fail := some t }) nodes child) lab x :=
      fun x hx => failOK_setFail e1 hlps x (Or.inl hx)
    have hlen := length_modifyNode (fun nd => { nd with fail := some t }) nodes child
    obtain ⟨nodes1, r1, r2, r3, r4, r5⟩ :=
      ih (modifyNode (fun nd => { nd with fail := some t }) nodes child) (queue ++ [child])
        (h.of_sameShape hsame) (by rw [hlen]; exact hcur)
        (by rw [failOf_setFail _ _ _ _ e1]; simp [Ne.symm hchild0, h0])
        (by
          intro hc0 x hx hx0 hl
          rw [hlen] at hx
          exact hmono x (hok hc0 x hx hx0 hl))
        (by
          intro c m hm
          rw [childrenOf_setFail]
          exact hks c m (List.mem_cons_of_mem _ hm))
    refine ⟨nodes1, ?_, hsame.trans r2, r3, fun x hx => r4 x (hmono x hx), ?_⟩
    · rw [hstep, r1]; simp
    · intro c m hm
      rcases List.mem_cons.1 hm with hm | hm
      · have : m = child := by
          have := congrArg Prod.snd hm
          simpa using this
        subst this
        exact r4 m (failOK_setFail e1 hlps m (Or.inr rfl))
      · exact r5 c m hm

theorem prefix_ne_length {a b : List Char} (h : a <+: b) (hne : a ≠ b) : a.length < b.length := by
  have := h.length_le
  by_contra hge
  exact hne (h.eq_of_length (by omega))

theorem mem_pending {N : Nat} {lab : Nat → List Char} {q : List Nat} {x : Nat} :
    x ∈ pending N lab q ↔ x < N ∧ ∃ n, n ∈ q ∧ lab n <+: lab x := by
  simp [pending]

/-- One round of the breadth-first loop keeps the invariant and dequeues a cell
for good. -/
theorem bfs_step (ord : ChildOrder) {nodes : List ACNode} {lab : Nat → List Char}
    {cur : Nat} {rest : List Nat} (hinv : BfsInv nodes lab (cur :: rest)) :
    ∃ nodes1,
      assignChildren cur (ord.visit cur (childrenOf nodes cur)) nodes rest =
        some (nodes1, rest ++ (ord.visit cur (childrenOf nodes cur)).map Prod.snd) ∧
      SameShape nodes nodes1 ∧
      BfsInv nodes1 lab (rest ++ (ord.visit cur (childrenOf nodes cur)).map Prod.snd) ∧
      (pending nodes.length lab
          (rest ++ (ord.visit cur (childrenOf nodes cur)).map Prod.snd)).card <
        (pending nodes.length lab (cur :: rest)).card := by
  have h := hinv.shape
  have hcur : cur < nodes.length := hinv.inq cur (List.mem_cons_self _ _)
  have hsorted := List.pairwise_cons.1 hinv.sorted
  have hperm := ord.perm cur (childrenOf nodes cur)
  -- the visited entries are the edges out of `cur`
  have hmem : ∀ c m, (c, m) ∈ ord.visit cur (childrenOf nodes cur) →
      mapGet (childrenOf nodes cur) c = some m := by
    intro c m hm
    exact mapGet_of_mem _ _ _ (h.keys cur) (hperm.mem_iff.1 hm)
  have hkid : ∀ n, n ∈ (ord.visit cur (childrenOf nodes cur)).map Prod.snd →
      ∃ c, (c, n) ∈ ord.visit cur (childrenOf nodes cur) ∧ n < nodes.length ∧
        lab n = lab cur ++ [c] := by
    intro n hn
    obtain ⟨⟨c, m⟩, hcm, hmn⟩ := List.mem_map.1 hn
    simp only at hmn
    subst hmn
    obtain ⟨e1, e2, _⟩ := h.edge cur c m hcur (hmem c m hcm)
    exact ⟨c, hcm, e1, e2⟩
  -- everything at the depth of `cur` or above has its failure link
  have hA : ∀ x, x < nodes.length → x ≠ 0 → (lab x).length ≤ (lab cur).length →
      FailOK nodes lab x := by
    intro x hx hx0 hl
    rcases hinv.cover x hx hx0 with hok | ⟨n, hn, hp, hne⟩
    · exact hok
    · have h1 := prefix_ne_length hp hne
      rcases List.mem_cons.1 hn with hn | hn
      · subst hn; omega
      · have := (hsorted.1 n hn).1
        omega
  obtain ⟨nodes1, r1, r2, r3, r4, r5⟩ :=
    assignChildren_spec cur (ord.visit cur (childrenOf nodes cur)) nodes rest h hcur
      hinv.root (fun _ => hA) hmem
  refine ⟨nodes1, r1, r2, ?_, ?_⟩
  · refine ⟨h.of_sameShape r2, r3, ?_, ?_, ?_, ?_⟩
    · intro n hn
      rw [r2.1]
      rcases List.mem_append.1 hn with hn | hn
      · exact hinv.inq n (List.mem_cons_of_mem _ hn)
      · obtain ⟨c, _, e1, _⟩ := hkid n hn
        exact e1
    · rw [List.pairwise_append]
      refine ⟨hsorted.2, ?_, ?_⟩
      · rw [List.pairwise_map]
        have hnd : ((ord.visit cur (childrenOf nodes cur)).map Prod.fst).Nodup :=
          (hperm.map Prod.fst).nodup_iff.2 (h.keys cur)
        have hpw := List.pairwise_map.1 hnd
        refine hpw.imp_of_mem ?_
        intro a b ha hb hab
        obtain ⟨ca, ma⟩ := a
        obtain ⟨cb, mb⟩ := b
        simp only at hab ⊢
        obtain ⟨_, ea, _⟩ := h.edge cur ca ma hcur (hmem ca ma ha)
        obtain ⟨_, eb, _⟩ := h.edge cur cb mb hcur (hmem cb mb hb)
        rw [ea, eb]
        refine ⟨by simp, ?_⟩
        intro hp
        rw [List.prefix_append_right_inj] at hp
        have := hp.eq_of_length (by simp)
        exact hab (by simpa using this)
      · intro a ha b hb
        obtain ⟨c, _, _, eb⟩ := hkid b hb
        have hca := hsorted.1 a ha
        have hnear := hinv.near cur (List.mem_cons_self _ _) a (List.mem_cons_of_mem _ ha)
        rw [eb]
        refine ⟨by simp; omega, ?_⟩
        intro hp
        rcases List.prefix_concat_iff.1 hp with hp | hp
        · exact hca.2 ⟨[c], hp.symm⟩
        · have := hp.eq_of_length (by have := hp.length_le; omega)
          exact hca.2 (by rw [this])
    · intro a ha b hb
      rcases List.mem_append.1 ha with ha | ha <;> rcases List.mem_append.1 hb with hb | hb
      · exact hinv.near a (List.mem_cons_of_mem _ ha) b (List.mem_cons_of_mem _ hb)
      · obtain ⟨c, _, _, eb⟩ := hkid b hb
        have := (hsorted.1 a ha).1
        rw [eb]; simp; omega
      · obtain ⟨c, _, _, ea⟩ := hkid a ha
        have := hinv.near cur (List.mem_cons_self _ _) b (List.mem_cons_of_mem _ hb)
        rw [ea]; simp; omega
      · obtain ⟨c, _, _, ea⟩ := hkid a ha
        obtain ⟨d, _, _, eb⟩ := hkid b hb
        rw [ea, eb]; simp
    · intro x hx hx0
      rw [r2.1] at hx
      rcases hinv.cover x hx hx0 with hok | ⟨n, hn, hp, hne⟩
      · exact Or.inl (r4 x hok)
      · rcases List.mem_cons.1 hn with hn | hn
        · subst hn
          -- `x` lies strictly below `cur`: below one of its children, or one of them
          obtain ⟨t, ht⟩ := hp
          cases t with
          | nil => exact absurd (by simpa using ht) hne
          | cons c t =>
            obtain ⟨k, hk, hlk⟩ := h.prefix_closed t (lab n ++ [c]) x hx (by rw [← ht]; simp)
            have hck := h.child_of_lab hcur hk hlk
            have hin : (c, k) ∈ ord.visit n (childrenOf nodes n) :=
              hperm.mem_iff.2 (mapGet_mem _ _ _ hck)
            by_cases hkx : lab k = lab x
            · have : k = x := h.injective hk hx hkx
              subst this
              exact Or.inl (r5 c k hin)
            · refine Or.inr ⟨k, ?_, ⟨t, by rw [hlk, ← ht]; simp⟩, hkx⟩
              exact List.mem_append_right _ (List.mem_map.2 ⟨(c, k), hin, rfl⟩)
        · exact Or.inr ⟨n, List.mem_append_left _ hn, hp, hne⟩
  · apply Finset.card_lt_card
    rw [Finset.ssubset_iff_of_subset]
    · refine ⟨cur, mem_pending.2 ⟨hcur, cur, List.mem_cons_self _ _, List.prefix_rfl⟩, ?_⟩
      intro hin
      obtain ⟨_, n, hn, hp⟩ := mem_pending.1 hin
      rcases List.mem_append.1 hn with hn | hn
      · have hca := hsorted.1 n hn
        have := hp.eq_of_length (by have := hp.length_le; omega)
        exact hca.2 (by rw [this])
      · obtain ⟨c, _, _, e⟩ := hkid n hn
        have := hp.length_le
        rw [e] at this
        simp at this
    · intro x hx
      obtain ⟨hxN, n, hn, hp⟩ := mem_pending.1 hx
      rcases List.mem_append.1 hn with hn | hn
      · exact mem_pending.2 ⟨hxN, n, List.mem_cons_of_mem _ hn, hp⟩
      · obtain ⟨c, _, _, e⟩ := hkid n hn
        refine mem_pending.2 ⟨hxN, cur, List.mem_cons_self _ _, ?_⟩
        exact List.IsPrefix.trans ⟨[c], e.symm⟩ hp

/-- The breadth-first loop ends within its fuel with every failure link set. -/
theorem bfsLoop_spec (ord : ChildOrder) {lab : Nat → List Char} :
    ∀ (fuel : Nat) (q : List Nat) (nodes : List ACNode), BfsInv nodes lab q →
      (pending nodes.length lab q).card ≤ fuel →
      ∃ nodes1, bfsLoop ord fuel q nodes = some nodes1 ∧ SameShape nodes nodes1 ∧
        failOf nodes1 0 = none ∧
        ∀ x, x < nodes1.length → x ≠ 0 → FailOK nodes1 lab x := by
  intro fuel
  induction fuel with
  | zero =>
    intro q nodes hinv hcard
    cases q with
    | nil =>
      refine ⟨nodes, by simp [bfsLoop], SameShape.refl _, hinv.root, ?_⟩
      intro x hx hx0
      rcases hinv.cover x hx hx0 with hok | ⟨n, hn, _⟩
      · exact hok
      · exact absurd hn (List.not_mem_nil _)
    | cons cur rest =>
      have hcur : cur < nodes.length := hinv.inq cur (List.mem_cons_self _ _)
      have : cur ∈ pending nodes.length lab (cur :: rest) :=
        mem_pending.2 ⟨hcur, cur, List.mem_cons_self _ _, List.prefix_rfl⟩
      have := Finset.card_pos.2 ⟨cur, this⟩
      omega
  | succ fuel ih =>
    intro q nodes hinv hcard
    cases q with
    | nil =>
      refine ⟨nodes, by simp [bfsLoop], SameShape.refl _, hinv.root, ?_⟩
      intro x hx hx0
      rcases hinv.cover x hx hx0 with hok | ⟨n, hn, _⟩
      · exact hok
      · exact absurd hn (List.not_mem_nil _)
    | cons cur rest =>
      obtain ⟨nodes1, s1, s2, s3, s4⟩ := bfs_step ord hinv
      obtain ⟨nodes2, t1, t2, t3, t4⟩ := ih _ nodes1 s3 (by rw [s2.1]; omega)
      refine ⟨nodes2, ?_, s2.trans t2, t3, t4⟩
      simp only [bfsLoop]
      rw [s1]
      exact t1

theorem TrieFor.of_same {P : List (List Char)} {a b : List ACNode} {lab : Nat → List Char}
    (h : TrieFor P a lab) (hs : SameShape a b) : TrieFor P b lab where
  shape := h.shape.of_sameShape hs
  ends := by
    intro n hn; rw [hs.1] at hn; rw [(hs.2 n).2.1]; exact h.ends n hn
  len := by
    intro n hn he
    rw [hs.1] at hn
    rw [(hs.2 n).2.1] at he
    rw [(hs.2 n).2.2]; exact h.len n hn he
  word := by
    intro w hw; rw [hs.1]; exact h.word w hw
  pre := by
    intro n hn h0; rw [hs.1] at hn; exact h.pre n hn h0

/-- The start of the breadth-first loop satisfies its invariant. -/
theorem bfsInv_start {nodes : List ACNode} {lab : Nat → List Char} (h : TrieShape nodes lab)
    (hf : ∀ n, failOf nodes n = none) : BfsInv nodes lab [0] where
  shape := h
  root := hf 0
  inq := by
    intro n hn
    have : n = 0 := by simpa using hn
    subst this; exact h.pos
  sorted := List.pairwise_singleton _ _
  near := by
    intro a ha b hb
    have ha0 : a = 0 := by simpa using ha
    have hb0 : b = 0 := by simpa using hb
    subst ha0; subst hb0; omega
  cover := by
    intro x hx hx0
    refine Or.inr ⟨0, by simp, by rw [h.root]; exact List.nil_prefix, ?_⟩
    rw [h.root]
    exact fun e => h.lab_ne_nil hx hx0 e.symm

/-- On the trie left by a run of `Insert`s, `BuildFailPointer` returns, changes
nothing but failure links, and sets every one of them correctly. -/
theorem BuildFailPointer_spec (ord : ChildOrder) {P : List (List Char)} {ac : AhoCorasick}
    {lab : Nat → List Char} (h : TrieFor P ac.nodes lab) (hf : ∀ n, failOf ac.nodes n = none) :
    ∃ ac1, BuildFailPointer ord ac = some ac1 ∧ SameShape ac.nodes ac1.nodes ∧
      Built P ac1.nodes lab := by
  have hcard : (pending ac.nodes.length lab [0]).card ≤ ac.nodes.length := by
    unfold pending
    exact (Finset.card_filter_le _ _).trans (by simp)
  obtain ⟨nodes1, r1, r2, r3, r4⟩ :=
    bfsLoop_spec ord ac.nodes.length [0] ac.nodes (bfsInv_start h.shape hf) hcard
  refine ⟨⟨nodes1⟩, ?_, r2, ⟨h.of_same r2, r3, r4⟩⟩
  simp [BuildFailPointer, r1]

/-- Loading a word list always yields a built automaton for it. -/
theorem loadWords_spec (ord : ChildOrder) (P : List (List Char)) :
    ∃ ac lab, loadWords ord P = some ac ∧ Built P ac.nodes lab ∧
      SameShape (P.foldl Insert NewAhoCorasick).nodes ac.nodes := by
  obtain ⟨lab, h, hf⟩ := trieFor_words P
  obtain ⟨ac1, r1, r2, r3⟩ := BuildFailPointer_spec ord h hf
  exact ⟨ac1, lab, r1, r3, r2⟩

/-! ### The scan on a built automaton -/

theorem followFail_spec {P : List (List Char)} {nodes : List ACNode} {lab : Nat → List Char}
    (hb : Built P nodes lab) (w : List Char) (ch : Char) :
    ∀ (fuel node : Nat), node < nodes.length → lab node <:+ w → (lab node).length ≤ fuel →
      (∀ m, m < nodes.length → lab m <:+ w → mapGet (childrenOf nodes m) ch ≠ none →
        (lab m).length ≤ (lab node).length) →
      ∃ s, followFail nodes ch fuel (some node) = some s ∧ s < nodes.length ∧ lab s <:+ w ∧
        (s = 0 ∨ mapGet (childrenOf nodes s) ch ≠ none) ∧
        (∀ m, m < nodes.length → lab m <:+ w → mapGet (childrenOf nodes m) ch ≠ none →
          (lab m).length ≤ (lab s).length) := by
  have h := hb.trie.shape
  intro fuel
  induction fuel with
  | zero =>
    intro node hn hs hl hmax
    have hnil : lab node = [] := List.length_eq_zero.1 (by omega)
    have hn0 : node = 0 := by
      by_contra hne; exact h.lab_ne_nil hn hne hnil
    subst hn0
    exact ⟨0, by simp [followFail], hn, hs, Or.inl rfl, hmax⟩
  | succ fuel ih =>
    intro node hn hs hl hmax
    by_cases hcond : node ≠ 0 ∧ childOf nodes node ch = none
    · obtain ⟨hn0, hc⟩ := hcond
      obtain ⟨t, ht, t1, t2, t3, t4⟩ := hb.fail node hn hn0
      have hstep : followFail nodes ch (fuel + 1) (some node) =
          followFail nodes ch fuel (some t) := by
        simp only [followFail, hn0, hc, ne_eq, not_false_eq_true, and_self, if_true, ht]
      rw [hstep]
      apply ih t t1 (t2.trans hs) (by omega)
      intro m hm hms hcm
      have hle := hmax m hm hms hcm
      have hsf : lab m <:+ lab node := List.suffix_of_suffix_length_le hms hs hle
      apply t4 m hm hsf
      by_contra hge
      have heq : lab m = lab node := hsf.eq_of_length (by omega)
      have : m = node := h.injective hm hn heq
      subst this
      rw [childOf_eq] at hc
      exact hcm hc
    · refine ⟨node, by simp only [followFail, hcond, if_false], hn, hs, ?_, hmax⟩
      by_cases hn0 : node = 0
      · exact Or.inl hn0
      · right
        intro hc
        exact hcond ⟨hn0, by rw [childOf_eq]; exact hc⟩

/-- One step of the scan moves from the longest suffix of `w` in the trie to the
longest suffix of `w ++ [ch]` in the trie. -/
theorem advance_spec {P : List (List Char)} {nodes : List ACNode} {lab : Nat → List Char}
    (hb : Built P nodes lab) (w : List Char) (ch : Char) (node : Nat)
    (hnode : LongestSuffix nodes.length lab w node) :
    ∃ s, advance nodes node ch = some s ∧ LongestSuffix nodes.length lab (w ++ [ch]) s := by
  have h := hb.trie.shape
  obtain ⟨n1, n2, n3⟩ := hnode
  have hd := h.depth_le node n1
  obtain ⟨s, s1, s2, s3, s4, s5⟩ := followFail_spec hb w ch nodes.length node n1 n2
    (by omega) (fun m hm hs _ => n3 m hm hs)
  unfold advance
  rw [s1]
  simp only
  rw [childOf_eq]
  cases hc : mapGet (childrenOf nodes s) ch with
  | some next =>
    obtain ⟨e1, e2, _⟩ := h.edge s ch next s2 hc
    refine ⟨next, rfl, e1, by rw [e2]; exact suffix_snoc s3 ch, ?_⟩
    intro m hm hms
    by_cases hne : lab m = []
    · rw [hne]; simp
    · obtain ⟨n, hn, hsn, hlm, hcn⟩ := h.cand_of_suffix hm hms hne
      have := s5 n hn hsn (by rw [hcn]; simp)
      rw [hlm, e2]; simp; omega
  | none =>
    have hs0 : s = 0 := by
      rcases s4 with s4 | s4
      · exact s4
      · exact absurd hc s4
    subst hs0
    refine ⟨0, rfl, s2, by rw [h.root]; exact List.nil_suffix, ?_⟩
    intro m hm hms
    by_cases hne : lab m = []
    · rw [hne]; simp
    · obtain ⟨n, hn, hsn, hlm, hcn⟩ := h.cand_of_suffix hm hms hne
      have hl := s5 n hn hsn (by rw [hcn]; simp)
      rw [h.root] at hl
      have hnil : lab n = [] := List.length_eq_zero.1 (by simpa using hl)
      have hn0 : n = 0 := by
        by_contra hne0; exact h.lab_ne_nil hn hne0 hnil
      subst hn0
      rw [hc] at hcn
      exact Option.noConfusion hcn

/-- The walk over the failure chain of `tmp` reports exactly the pattern ends
among the non-root cells whose label is a suffix of the label of `tmp`. -/
theorem matchWalk_spec {P : List (List Char)} {nodes : List ACNode} {lab : Nat → List Char}
    (hb : Built P nodes lab) (i : Nat) :
    ∀ (fuel tmp : Nat) (ps : List Position), tmp < nodes.length → (lab tmp).length ≤ fuel →
      ∃ ps1, matchWalk nodes i fuel (some tmp) ps = some ps1 ∧
        ∀ p, p ∈ ps1 ↔ p ∈ ps ∨ ∃ m, m < nodes.length ∧ m ≠ 0 ∧ lab m <:+ lab tmp ∧
          isEndOf nodes m = true ∧ p = ⟨(i : Int) - (lengthOf nodes m : Int) + 1, (i : Int)⟩ := by
  have h := hb.trie.shape
  have hroot : ∀ (fuel : Nat) (ps : List Position),
      ∃ ps1, matchWalk nodes i fuel (some 0) ps = some ps1 ∧
        ∀ p, p ∈ ps1 ↔ p ∈ ps ∨ ∃ m, m < nodes.length ∧ m ≠ 0 ∧ lab m <:+ lab 0 ∧
          isEndOf nodes m = true ∧
            p = ⟨(i : Int) - (lengthOf nodes m : Int) + 1, (i : Int)⟩ := by
    intro fuel ps
    refine ⟨ps, by cases fuel <;> simp [matchWalk], ?_⟩
    intro p
    constructor
    · exact Or.inl
    · rintro (hp | ⟨m, hm, hm0, hs, _⟩)
      · exact hp
      · rw [h.root, List.suffix_nil] at hs
        exact absurd hs (h.lab_ne_nil hm hm0)
  intro fuel
  induction fuel with
  | zero =>
    intro tmp ps ht hl
    have hnil : lab tmp = [] := List.length_eq_zero.1 (by omega)
    have hn0 : tmp = 0 := by
      by_contra hne; exact h.lab_ne_nil ht hne hnil
    subst hn0
    exact hroot 0 ps
  | succ fuel ih =>
    intro tmp ps ht hl
    by_cases ht0 : tmp = 0
    · subst ht0; exact hroot _ ps
    · obtain ⟨t, hft, t1, t2, t3, t4⟩ := hb.fail tmp ht ht0
      have hstep : matchWalk nodes i (fuel + 1) (some tmp) ps =
          matchWalk nodes i fuel (some t)
            (if isEndOf nodes tmp then
              ps ++ [⟨(i : Int) - (lengthOf nodes tmp : Int) + 1, (i : Int)⟩]
             else ps) := by
        simp only [matchWalk, ht0, ne_eq, not_false_eq_true, if_true, hft]
      rw [hstep]
      obtain ⟨ps1, r1, r2⟩ := ih t _ t1 (by omega)
      refine ⟨ps1, r1, ?_⟩
      intro p
      rw [r2 p]
      constructor
      · rintro (hp | ⟨m, hm, hm0, hs, he, hpe⟩)
        · by_cases hend : isEndOf nodes tmp = true
          · simp only [hend, if_true, List.mem_append, List.mem_singleton] at hp
            rcases hp with hp | hp
            · exact Or.inl hp
            · exact Or.inr ⟨tmp, ht, ht0, List.suffix_rfl, hend, hp⟩
          · simp only [hend, Bool.false_eq_true, if_false] at hp
            exact Or.inl hp
        · exact Or.inr ⟨m, hm, hm0, hs.trans t2, he, hpe⟩
      · rintro (hp | ⟨m, hm, hm0, hs, he, hpe⟩)
        · left
          by_cases hend : isEndOf nodes tmp = true
          · simp only [hend, if_true, List.mem_append]
            exact Or.inl hp
          · simp only [hend, Bool.false_eq_true, if_false]
            exact hp
        · by_cases hmt : m = tmp
          · subst hmt
            left
            simp only [he, if_true, List.mem_append, List.mem_singleton]
            exact Or.inr hpe
          · right
            have hlt : (lab m).length < (lab tmp).length := by
              have := hs.length_le
              by_contra hge
              exact hmt (h.injective hm ht (hs.eq_of_length (by omega)))
            have hle := t4 m hm hs hlt
            exact ⟨m, hm, hm0, List.suffix_of_suffix_length_le hs t2 hle, he, hpe⟩

/-- The scan reports exactly the pattern-end cells whose label ends at a scanned
index. -/
theorem matchLoop_spec {P : List (List Char)} {nodes : List ACNode} {lab : Nat → List Char}
    (hb : Built P nodes lab) (text : List Char) :
    ∀ (k i node : Nat) (ps : List Position), i + k = text.length →
      LongestSuffix nodes.length lab (text.take i) node →
      ∃ ps1, matchLoop nodes text k i node ps = some ps1 ∧
        ∀ p, p ∈ ps1 ↔ p ∈ ps ∨ ∃ e m, i ≤ e ∧ e < text.length ∧ m < nodes.length ∧ m ≠ 0 ∧
          lab m <:+ text.take (e + 1) ∧ isEndOf nodes m = true ∧
          p = ⟨(e : Int) - (lengthOf nodes m : Int) + 1, (e : Int)⟩ := by
  have h := hb.trie.shape
  intro k
  induction k with
  | zero =>
    intro i node ps hik _
    refine ⟨ps, by simp [matchLoop], ?_⟩
    intro p
    constructor
    · exact Or.inl
    · rintro (hp | ⟨e, m, h1, h2, _⟩)
      · exact hp
      · omega
  | succ k ih =>
    intro i node ps hik hnode
    have hi : i < text.length := by omega
    obtain ⟨s, s1, s2⟩ := advance_spec hb (text.take i) text[i] node hnode
    have htake : text.take i ++ [text[i]] = text.take (i + 1) := by
      rw [List.take_succ, List.getElem?_eq_getElem hi]; rfl
    rw [htake] at s2
    have hd := h.depth_le s s2.1
    have hsN := s2.1
    obtain ⟨ps1, w1, w2⟩ := matchWalk_spec hb i nodes.length s ps s2.1 (by omega)
    obtain ⟨ps2, r1, r2⟩ := ih (i + 1) s ps1 (by omega) s2
    refine ⟨ps2, ?_, ?_⟩
    · simp only [matchLoop, List.getElem?_eq_getElem hi, s1, w1]
      exact r1
    · intro p
      rw [r2 p, w2 p]
      constructor
      · rintro ((hp | ⟨m, hm, hm0, hs, he, hpe⟩) | ⟨e, m, h1, h2, hm, hm0, hs, he, hpe⟩)
        · exact Or.inl hp
        · exact Or.inr ⟨i, m, Nat.le_refl _, hi, hm, hm0, hs.trans s2.2.1, he, hpe⟩
        · exact Or.inr ⟨e, m, by omega, h2, hm, hm0, hs, he, hpe⟩
      · rintro (hp | ⟨e, m, h1, h2, hm, hm0, hs, he, hpe⟩)
        · exact Or.inl (Or.inl hp)
        · by_cases hei : e = i
          · subst hei
            left; right
            exact ⟨m, hm, hm0,
              List.suffix_of_suffix_length_le hs s2.2.1 (s2.2.2 m hm hs), he, hpe⟩
          · right
            exact ⟨e, m, by omega, h2, hm, hm0, hs, he, hpe⟩

theorem longestSuffix_start {nodes : List ACNode} {lab : Nat → List Char}
    (h : TrieShape nodes lab) (text : List Char) :
    LongestSuffix nodes.length lab (text.take 0) 0 := by
  refine ⟨h.pos, by rw [h.root]; exact List.nil_suffix, ?_⟩
  intro m _ hs
  rw [List.take_zero, List.suffix_nil] at hs
  rw [hs]; simp

/-- On a built automaton `MatchPositions` returns, and returns exactly the
occurrences of the words of `P`. -/
theorem MatchPositions_spec {P : List (List Char)} {ac : AhoCorasick} {lab : Nat → List Char}
    (hb : Built P ac.nodes lab) (text : List Char) :
    ∃ ps, MatchPositions ac text = some ps ∧ ∀ p, p ∈ ps ↔ IsOccurrence P text p := by
  have h := hb.trie.shape
  obtain ⟨ps, r1, r2⟩ := matchLoop_spec hb text text.length 0 0 [] (by simp)
    (longestSuffix_start h text)
  refine ⟨ps, r1, ?_⟩
  intro p
  rw [r2 p]
  constructor
  · rintro (hp | ⟨e, m, _, h2, hm, hm0, hs, he, hpe⟩)
    · exact absurd hp (List.not_mem_nil _)
    · have hlen := hb.trie.len m hm he
      have hpos : 0 < (lab m).length := List.length_pos.2 (h.lab_ne_nil hm hm0)
      have hle : (lab m).length ≤ e + 1 := by
        have := hs.length_le
        rw [List.length_take] at this
        omega
      have hin := (hb.trie.ends m hm).1 he
      subst hpe
      rw [hlen]
      refine ⟨by simp only; omega, by simp only; omega, by simp only; omega, ?_⟩
      simp only
      have e1 : ((e : Int) - ((lab m).length : Int) + 1).toNat = e + 1 - (lab m).length := by
        omega
      have e2 : (e : Int).toNat = e := by simp
      rw [e1, e2]
      have e3 : e + 1 - (e + 1 - (lab m).length) = (lab m).length := by omega
      rw [e3]
      have hdrop := List.suffix_iff_eq_drop.1 hs
      rw [List.length_take, Nat.min_eq_left (by omega), List.drop_take] at hdrop
      rw [e3] at hdrop
      rw [← hdrop]
      exact hin
  · rintro ⟨h1, h2, h3, h4⟩
    right
    obtain ⟨s, e⟩ := p
    simp only at h1 h2 h3 h4
    obtain ⟨m, hm, hl⟩ := hb.trie.word _ h4
    have hlen : (lab m).length = e.toNat + 1 - s.toNat := by
      rw [hl, List.length_take, List.length_drop]
      omega
    have hm0 : m ≠ 0 := by
      intro h0
      subst h0
      rw [h.root] at hlen
      simp at hlen
      omega
    have he : isEndOf ac.nodes m = true := (hb.trie.ends m hm).2 (by rw [hl]; exact h4)
    refine ⟨e.toNat, m, Nat.zero_le _, by omega, hm, hm0, ?_, he, ?_⟩
    · rw [List.suffix_iff_eq_drop, List.length_take, Nat.min_eq_left (by omega), List.drop_take,
        hlen, hl]
      have e3 : e.toNat + 1 - (e.toNat + 1 - s.toNat) = s.toNat := by omega
      have e4 : e.toNat + 1 - s.toNat = e.toNat + 1 - s.toNat := rfl
      rw [e3]
    · rw [hb.trie.len m hm he, hlen]
      have : ((e.toNat : Int) - ((e.toNat + 1 - s.toNat : Nat) : Int) + 1) = s := by omega
      rw [this]
      have : (e.toNat : Int) = e := by omega
      rw [this]

/-! ### The fused filter against the two-phase design -/

theorem getElem?_overwriteFrom (p : Position) :
    ∀ (runes : List Char) (j k : Nat),
      (overwriteFrom p j runes)[k]? =
        (runes[k]?).map
          (fun c => if p.Start ≤ ((j + k : Nat) : Int) ∧ ((j + k : Nat) : Int) ≤ p.End
            then '~' else c) := by
  intro runes
  induction runes with
  | nil => intro j k; simp [overwriteFrom]
  | cons c cs ih =>
    intro j k
    cases k with
    | zero => simp [overwriteFrom]
    | succ k =>
      simp only [overwriteFrom, List.getElem?_cons_succ]
      rw [ih (j + 1) k]
      have : j + 1 + k = j + (k + 1) := by omega
      rw [this]

theorem redactLoop_flag (i : Nat) :
    ∀ (n j : Nat) (st : List Char × Bool), st.2 = true → (redactLoop i n j st).2 = true := by
  intro n
  induction n with
  | zero => intro j st h; simpa [redactLoop] using h
  | succ n ih =>
    intro j st h
    simp only [redactLoop]
    split
    · exact ih _ _ rfl
    · exact ih _ _ h

theorem redactLoop_unchanged (i : Nat) :
    ∀ (n j : Nat) (st : List Char × Bool), (redactLoop i n j st).2 = false →
      redactLoop i n j st = st := by
  intro n
  induction n with
  | zero => intro j st _; simp [redactLoop]
  | succ n ih =>
    intro j st h
    simp only [redactLoop] at h ⊢
    split at h
    · rw [redactLoop_flag i n (j + 1) _ rfl] at h
      exact Bool.noConfusion h
    · rename_i hneg
      simp only [hneg, if_false]
      exact ih _ _ h

theorem getElem?_redactLoop (i : Nat) :
    ∀ (n j : Nat) (st : List Char × Bool) (k : Nat),
      (redactLoop i n j st).1[k]? =
        (st.1[k]?).map
          (fun c => if (i : Int) - ((j + n : Nat) : Int) + 1 ≤ (k : Int) ∧
            (k : Int) ≤ (i : Int) - (j : Int) then '~' else c) := by
  intro n
  induction n with
  | zero =>
    intro j st k
    simp only [redactLoop, Nat.add_zero]
    have : ¬ ((i : Int) - (j : Int) + 1 ≤ (k : Int) ∧ (k : Int) ≤ (i : Int) - (j : Int)) := by
      omega
    simp [this]
  | succ n ih =>
    intro j st k
    simp only [redactLoop]
    by_cases hg : (i : Int) - (j : Int) ≥ 0
    · simp only [hg, if_true]
      rw [ih]
      simp only [List.getElem?_set]
      by_cases hk : i - j = k
      · have h1 : (i : Int) - ((j + 1 + n : Nat) : Int) + 1 ≤ (k : Int) ∧
            (k : Int) ≤ (i : Int) - ((j + 1 : Nat) : Int) ↔ False := by
          constructor
          · intro h; omega
          · exact False.elim
        have h2 : (i : Int) - ((j + (n + 1) : Nat) : Int) + 1 ≤ (k : Int) ∧
            (k : Int) ≤ (i : Int) - (j : Int) := by
          constructor <;> omega
        simp only [hk, if_true, h2, and_self]
        by_cases hlt : k < st.1.length
        · simp [hlt, List.getElem?_eq_getElem hlt]
        · simp [hlt, List.getElem?_eq_none (Nat.le_of_not_lt hlt)]
      · simp only [hk, if_false]
        congr 1
        funext c
        have : ((i : Int) - ((j + 1 + n : Nat) : Int) + 1 ≤ (k : Int) ∧
            (k : Int) ≤ (i : Int) - ((j + 1 : Nat) : Int)) ↔
            ((i : Int) - ((j + (n + 1) : Nat) : Int) + 1 ≤ (k : Int) ∧
            (k : Int) ≤ (i : Int) - (j : Int)) := by
          constructor
          · intro h; constructor <;> omega
          · intro h; constructor <;> omega
        simp only [this]
    · simp only [hg, if_false]
      rw [ih]
      congr 1
      funext c
      have h1 : ¬ ((i : Int) - ((j + 1 + n : Nat) : Int) + 1 ≤ (k : Int) ∧
            (k : Int) ≤ (i : Int) - ((j + 1 : Nat) : Int)) := by
        intro h; omega
      have h2 : ¬ ((i : Int) - ((j + (n + 1) : Nat) : Int) + 1 ≤ (k : Int) ∧
            (k : Int) ≤ (i : Int) - (j : Int)) := by
        intro h; omega
      simp only [h1, h2, if_false]

/-- The redaction loop of the filters is the overwrite of the position that
`MatchPositions` reports at the same place. -/
theorem redactLoop_eq_overwrite (i n : Nat) (st : List Char × Bool) :
    (redactLoop i n 0 st).1 = overwriteFrom ⟨(i : Int) - (n : Int) + 1, (i : Int)⟩ 0 st.1 := by
  apply List.ext_getElem?
  intro k
  rw [getElem?_redactLoop, getElem?_overwriteFrom]
  simp

theorem isInWhiteList_iff (i : Nat) (s : Int) (white : List Position) :
    isInWhiteList i white = true ↔ Suppressed white ⟨s, (i : Int)⟩ := by
  induction white with
  | nil => simp [isInWhiteList, Suppressed]
  | cons w rest ih =>
    simp only [isInWhiteList, Suppressed, List.mem_cons]
    by_cases hw : (i : Int) ≥ w.Start ∧ (i : Int) ≤ w.End
    · simp only [hw, and_self, if_true, true_iff]
      exact ⟨w, Or.inl rfl, hw.1, hw.2⟩
    · simp only [hw, if_false]
      rw [ih]
      constructor
      · rintro ⟨x, hx, h1, h2⟩
        exact ⟨x, Or.inr hx, h1, h2⟩
      · rintro ⟨x, hx | hx, h1, h2⟩
        · subst hx; exact absurd ⟨h1, h2⟩ hw
        · exact ⟨x, hx, h1, h2⟩

theorem Redact_append (text : List Char) (ps : List Position) (p : Position)
    (white : List Position) :
    Redact text (ps ++ [p]) white =
      if Suppressed white p then Redact text ps white
      else overwriteFrom p 0 (Redact text ps white) := by
  simp [Redact, List.foldl_append]

theorem getElem?_Redact (white : List Position) (k : Nat) :
    ∀ (ps : List Position) (text : List Char),
      (Redact text ps white)[k]? =
        (text[k]?).map (fun c => if CoveredBy white ps k then '~' else c) := by
  intro ps
  induction ps using List.reverseRecOn with
  | nil =>
    intro text
    have : ¬ CoveredBy white [] k := by simp [CoveredBy]
    simp [Redact, this]
  | append_singleton ps p ih =>
    intro text
    rw [Redact_append]
    have hcov : CoveredBy white (ps ++ [p]) k ↔
        CoveredBy white ps k ∨
          (¬ Suppressed white p ∧ p.Start ≤ (k : Int) ∧ (k : Int) ≤ p.End) := by
      unfold CoveredBy
      constructor
      · rintro ⟨q, hq, h1, h2, h3⟩
        rcases List.mem_append.1 hq with hq | hq
        · exact Or.inl ⟨q, hq, h1, h2, h3⟩
        · have : q = p := by simpa using hq
          subst this
          exact Or.inr ⟨h1, h2, h3⟩
      · rintro (⟨q, hq, h1, h2, h3⟩ | ⟨h1, h2, h3⟩)
        · exact ⟨q, List.mem_append_left _ hq, h1, h2, h3⟩
        · exact ⟨p, by simp, h1, h2, h3⟩
    by_cases hs : Suppressed white p
    · simp only [hs, if_true]
      rw [ih]
      congr 1
      funext c
      have : CoveredBy white (ps ++ [p]) k ↔ CoveredBy white ps k := by
        rw [hcov]; simp [hs]
      simp only [this]
    · simp only [hs, if_false]
      rw [getElem?_overwriteFrom, ih, Option.map_map]
      congr 1
      funext c
      simp only [Function.comp, Nat.zero_add]
      by_cases hr : p.Start ≤ (k : Int) ∧ (k : Int) ≤ p.End
      · have : CoveredBy white (ps ++ [p]) k := hcov.2 (Or.inr ⟨hs, hr.1, hr.2⟩)
        simp [hr, this]
      · have : CoveredBy white (ps ++ [p]) k ↔ CoveredBy white ps k := by
          rw [hcov]
          constructor
          · rintro (h | ⟨_, h1, h2⟩)
            · exact h
            · exact absurd ⟨h1, h2⟩ hr
          · exact Or.inl
        simp only [hr, if_false, this]

theorem whiteWalk_sim (nodes : List ACNode) (text : List Char) (white : List Position)
    (i : Nat) :
    ∀ (fuel : Nat) (tmp : Option Nat) (ps : List Position) (st : List Char × Bool),
      Agree text white ps st →
      (matchWalk nodes i fuel tmp ps = none ∧ whiteWalk nodes white i fuel tmp st = none) ∨
      ∃ ps1 st1, matchWalk nodes i fuel tmp ps = some ps1 ∧
        whiteWalk nodes white i fuel tmp st = some st1 ∧ Agree text white ps1 st1 ∧
        ∀ p, p ∈ ps1 → p ∈ ps ∨ p.End = (i : Int) := by
  intro fuel
  induction fuel with
  | zero =>
    intro tmp ps st hag
    cases tmp with
    | none => left; simp [matchWalk, whiteWalk]
    | some t =>
      by_cases ht : t = 0
      · right
        exact ⟨ps, st, by simp [matchWalk, ht], by simp [whiteWalk, ht], hag,
          fun p hp => Or.inl hp⟩
      · left; simp [matchWalk, whiteWalk, ht]
  | succ fuel ih =>
    intro tmp ps st hag
    cases tmp with
    | none => left; simp [matchWalk, whiteWalk]
    | some t =>
      by_cases ht : t = 0
      · right
        exact ⟨ps, st, by simp [matchWalk, ht], by simp [whiteWalk, ht], hag,
          fun p hp => Or.inl hp⟩
      · have hm : matchWalk nodes i (fuel + 1) (some t) ps =
            matchWalk nodes i fuel (failOf nodes t)
              (if isEndOf nodes t then
                ps ++ [⟨(i : Int) - (lengthOf nodes t : Int) + 1, (i : Int)⟩]
               else ps) := by
          simp only [matchWalk, ht, ne_eq, not_false_eq_true, if_true]
        have hw : whiteWalk nodes white i (fuel + 1) (some t) st =
            whiteWalk nodes white i fuel (failOf nodes t)
              (if isEndOf nodes t then
                (if !isInWhiteList i white then redactLoop i (lengthOf nodes t) 0 st else st)
               else st) := by
          simp only [whiteWalk, ht, ne_eq, not_false_eq_true, if_true]
        rw [hm, hw]
        -- the two states after this cell still agree
        have hag1 : Agree text white
            (if isEndOf nodes t then
                ps ++ [⟨(i : Int) - (lengthOf nodes t : Int) + 1, (i : Int)⟩]
               else ps)
            (if isEndOf nodes t then
                (if !isInWhiteList i white then redactLoop i (lengthOf nodes t) 0 st else st)
               else st) := by
          by_cases hend : isEndOf nodes t = true
          · simp only [hend, if_true]
            unfold Agree
            rw [Redact_append]
            by_cases hwl : isInWhiteList i white = true
            · have hs := (isInWhiteList_iff i ((i : Int) - (lengthOf nodes t : Int) + 1) white).1 hwl
              simp only [hwl, Bool.not_true, Bool.false_eq_true, if_false, hs, if_true]
              exact hag
            · have hs : ¬ Suppressed white ⟨(i : Int) - (lengthOf nodes t : Int) + 1, (i : Int)⟩ :=
                fun h => hwl ((isInWhiteList_iff i _ white).2 h)
              have hwl2 : isInWhiteList i white = false := by
                cases h : isInWhiteList i white
                · rfl
                · exact absurd h hwl
              simp only [hwl2, Bool.not_false, if_true, hs, if_false]
              refine ⟨?_, ?_⟩
              · rw [redactLoop_eq_overwrite, hag.1]
              · intro hflag
                have hun := redactLoop_unchanged _ _ _ _ hflag
                rw [hun] at hflag ⊢
                exact hag.2 hflag
          · simp only [hend, Bool.false_eq_true, if_false]
            exact hag
        rcases ih (failOf nodes t) _ _ hag1 with hnone | ⟨ps1, st1, r1, r2, r3, r4⟩
        · exact Or.inl hnone
        · refine Or.inr ⟨ps1, st1, r1, r2, r3, ?_⟩
          intro p hp
          rcases r4 p hp with h1 | h1
          · by_cases hend : isEndOf nodes t = true
            · simp only [hend, if_true, List.mem_append, List.mem_singleton] at h1
              rcases h1 with h1 | h1
              · exact Or.inl h1
              · right; rw [h1]
            · simp only [hend, Bool.false_eq_true, if_false] at h1
              exact Or.inl h1
          · exact Or.inr h1

theorem getElem?_of_agree {text : List Char} {white ps : List Position}
    {st : List Char × Bool} (hag : Agree text white ps st) (i : Nat)
    (hends : ∀ p, p ∈ ps → p.End < (i : Int)) : st.1[i]? = text[i]? := by
  rw [hag.1, getElem?_Redact]
  have : ¬ CoveredBy white ps i := by
    rintro ⟨p, hp, _, _, h3⟩
    have := hends p hp
    omega
  simp [this]

/-- The fused loop and the scan run in lockstep: overwriting scanned code points
does not change what the scan reads. -/
theorem whiteLoop_sim (nodes : List ACNode) (text : List Char) (white : List Position) :
    ∀ (k i node : Nat) (ps : List Position) (st : List Char × Bool),
      Agree text white ps st → (∀ p, p ∈ ps → p.End < (i : Int)) →
      (matchLoop nodes text k i node ps = none ∧ whiteLoop nodes white k i node st = none) ∨
      ∃ ps1 st1, matchLoop nodes text k i node ps = some ps1 ∧
        whiteLoop nodes white k i node st = some st1 ∧ Agree text white ps1 st1 := by
  intro k
  induction k with
  | zero =>
    intro i node ps st hag _
    right
    exact ⟨ps, st, by simp [matchLoop], by simp [whiteLoop], hag⟩
  | succ k ih =>
    intro i node ps st hag hends
    have hread := getElem?_of_agree hag i hends
    simp only [matchLoop, whiteLoop, hread]
    cases hch : text[i]? with
    | none => right; exact ⟨ps, st, rfl, rfl, hag⟩
    | some ch =>
      simp only
      cases hadv : advance nodes node ch with
      | none => left; exact ⟨rfl, rfl⟩
      | some node1 =>
        simp only
        rcases whiteWalk_sim nodes text white i nodes.length (some node1) ps st hag with
          ⟨h1, h2⟩ | ⟨ps1, st1, r1, r2, r3, r4⟩
        · left; rw [h1, h2]; exact ⟨rfl, rfl⟩
        · rw [r1, r2]
          simp only
          apply ih (i + 1) node1 ps1 st1 r3
          intro p hp
          rcases r4 p hp with h1 | h1
          · have := hends p h1
            push_cast; omega
          · rw [h1]; push_cast; omega

/-- The fused scan-and-redact of `FilterWithWhitelist` is `Redact` applied to the
positions of `MatchPositions`, on every heap. -/
theorem FilterWithWhitelist_eq_Redact (ac : AhoCorasick) (text : List Char)
    (white : List Position) :
    FilterWithWhitelist ac text white =
      (MatchPositions ac text).map (fun ps => Redact text ps white) := by
  unfold FilterWithWhitelist MatchPositions
  have hag : Agree text white [] (text, false) := ⟨by simp [Redact], fun _ => rfl⟩
  rcases whiteLoop_sim ac.nodes text white text.length 0 0 [] (text, false) hag
      (fun p hp => absurd hp (List.not_mem_nil _)) with ⟨h1, h2⟩ | ⟨ps1, st1, r1, r2, r3⟩
  · rw [h1, h2]; rfl
  · rw [r1, r2]
    simp only [Option.map_some']
    by_cases hflag : st1.2 = true
    · simp [hflag, r3.1]
    · have hf : st1.2 = false := by
        cases h : st1.2
        · rfl
        · exact absurd h hflag
      simp only [hf, Bool.false_eq_true, if_false]
      rw [← r3.1, r3.2 hf]

/-! ### `Filter` is `FilterWithWhitelist` with no whitelist span -/

theorem filterWalk_eq (nodes : List ACNode) (i : Nat) :
    ∀ (fuel : Nat) (tmp : Option Nat) (st : List Char × Bool),
      filterWalk nodes i fuel tmp st = whiteWalk nodes [] i fuel tmp st := by
  intro fuel
  induction fuel with
  | zero =>
    intro tmp st
    cases tmp <;> simp [filterWalk, whiteWalk]
  | succ fuel ih =>
    intro tmp st
    cases tmp with
    | none => simp [filterWalk, whiteWalk]
    | some t =>
      simp only [filterWalk, whiteWalk, isInWhiteList, Bool.not_false, if_true]
      split
      · exact ih _ _
      · rfl

theorem filterLoop_eq (nodes : List ACNode) :
    ∀ (k i node : Nat) (st : List Char × Bool),
      filterLoop nodes k i node st = whiteLoop nodes [] k i node st := by
  intro k
  induction k with
  | zero => intro i node st; simp [filterLoop, whiteLoop]
  | succ k ih =>
    intro i node st
    simp only [filterLoop, whiteLoop, filterWalk_eq, ih]

theorem Filter_eq (ac : AhoCorasick) (text : List Char) :
    Filter ac text = FilterWithWhitelist ac text [] := by
  unfold Filter FilterWithWhitelist
  rw [filterLoop_eq]

/-! ### What the filter leaves in the text -/

theorem length_overwriteFrom (p : Position) :
    ∀ (runes : List Char) (j : Nat), (overwriteFrom p j runes).length = runes.length := by
  intro runes
  induction runes with
  | nil => intro j; simp [overwriteFrom]
  | cons c cs ih => intro j; simp [overwriteFrom, ih]

theorem length_Redact (white : List Position) :
    ∀ (ps : List Position) (text : List Char), (Redact text ps white).length = text.length := by
  intro ps
  induction ps using List.reverseRecOn with
  | nil => intro text; simp [Redact]
  | append_singleton ps p ih =>
    intro text
    rw [Redact_append]
    split
    · exact ih text
    · rw [length_overwriteFrom]; exact ih text

/-- On a built automaton `FilterWithWhitelist` returns a text of the same
length, with the placeholder exactly at the indices of the occurrences that are
not suppressed. -/
theorem FilterWithWhitelist_spec {P : List (List Char)} {ac : AhoCorasick}
    {lab : Nat → List Char} (hb : Built P ac.nodes lab) (text : List Char)
    (white : List Position) :
    ∃ out, FilterWithWhitelist ac text white = some out ∧ out.length = text.length ∧
      ∀ k c, text[k]? = some c →
        (Redacted P text white k → out[k]? = some '~') ∧
        (¬ Redacted P text white k → out[k]? = some c) := by
  obtain ⟨ps, r1, r2⟩ := MatchPositions_spec hb text
  refine ⟨Redact text ps white, ?_, length_Redact white ps text, ?_⟩
  · rw [FilterWithWhitelist_eq_Redact, r1]; rfl
  · intro k c hc
    have hiff : CoveredBy white ps k ↔ Redacted P text white k := by
      unfold CoveredBy Redacted
      constructor
      · rintro ⟨p, hp, h1, h2, h3⟩
        exact ⟨p, (r2 p).1 hp, h1, h2, h3⟩
      · rintro ⟨p, hp, h1, h2, h3⟩
        exact ⟨p, (r2 p).2 hp, h1, h2, h3⟩
    rw [getElem?_Redact, hc]
    constructor
    · intro h
      simp [hiff.2 h]
    · intro h
      have : ¬ CoveredBy white ps k := fun h1 => h (hiff.1 h1)
      simp [this]

theorem slice_congr {a b : List Char} (s n : Nat)
    (h : ∀ k, s ≤ k → k < s + n → a[k]? = b[k]?) :
    (a.drop s).take n = (b.drop s).take n := by
  apply List.ext_getElem?
  intro k
  rw [List.getElem?_take, List.getElem?_take, List.getElem?_drop, List.getElem?_drop]
  split
  · exact h (s + k) (by omega) (by omega)
  · rfl

/-- An occurrence carries over to a text that agrees on its range. -/
theorem IsOccurrence.transfer {P : List (List Char)} {a b : List Char} {p : Position}
    (h : IsOccurrence P a p) (hlen : a.length = b.length)
    (hagree : ∀ k : Nat, p.Start ≤ (k : Int) → (k : Int) ≤ p.End → a[k]? = b[k]?) :
    IsOccurrence P b p := by
  obtain ⟨h1, h2, h3, h4⟩ := h
  refine ⟨h1, h2, by rw [← hlen]; exact h3, ?_⟩
  rw [← slice_congr p.Start.toNat (p.End.toNat + 1 - p.Start.toNat)
    (fun k hk1 hk2 => hagree k (by omega) (by omega))]
  exact h4

/-- No code point of an occurrence is the placeholder when no word holds it. -/
theorem IsOccurrence.no_placeholder {P : List (List Char)} {a : List Char} {p : Position}
    (h : IsOccurrence P a p) (hP : ∀ w, w ∈ P → '~' ∉ w) (k : Nat)
    (hk1 : p.Start ≤ (k : Int)) (hk2 : (k : Int) ≤ p.End) : a[k]? ≠ some '~' := by
  obtain ⟨h1, h2, h3, h4⟩ := h
  intro hc
  apply hP _ h4
  have : ((a.drop p.Start.toNat).take (p.End.toNat + 1 - p.Start.toNat))[k - p.Start.toNat]? =
      some '~' := by
    rw [List.getElem?_take, if_pos (by omega), List.getElem?_drop]
    have : p.Start.toNat + (k - p.Start.toNat) = k := by omega
    rw [this]; exact hc
  exact List.getElem?_mem this

/-- An occurrence found in the filtered text is a suppressed occurrence of the
text that was filtered, provided no word holds the placeholder. -/
theorem occurrence_of_filtered {P : List (List Char)} {text out : List Char}
    {white : List Position} (hP : ∀ w, w ∈ P → '~' ∉ w) (hlen : out.length = text.length)
    (hout : ∀ k c, text[k]? = some c →
        (Redacted P text white k → out[k]? = some '~') ∧
        (¬ Redacted P text white k → out[k]? = some c))
    {p : Position} (hp : IsOccurrence P out p) :
    IsOccurrence P text p ∧ Suppressed white p := by
  have hkeep : ∀ k : Nat, p.Start ≤ (k : Int) → (k : Int) ≤ p.End →
      ¬ Redacted P text white k ∧ out[k]? = text[k]? := by
    intro k hk1 hk2
    have hklt : k < text.length := by
      have := hp.2.2.1
      rw [hlen] at this
      omega
    have hc := List.getElem?_eq_getElem hklt
    have hnr : ¬ Redacted P text white k := by
      intro hr
      exact hp.no_placeholder hP k hk1 hk2 ((hout k _ hc).1 hr)
    exact ⟨hnr, by rw [(hout k _ hc).2 hnr, hc]⟩
  have hocc : IsOccurrence P text p := hp.transfer hlen (fun k h1 h2 => (hkeep k h1 h2).2)
  refine ⟨hocc, ?_⟩
  by_contra hns
  have h1 := hp.1
  have h2 := hp.2.1
  apply (hkeep p.End.toNat (by omega) (by omega)).1
  exact ⟨p, hocc, hns, by omega, by omega⟩

/-- A text in which nothing is to be redacted passes the filter unchanged. -/
theorem FilterWithWhitelist_fixed {P : List (List Char)} {ac : AhoCorasick}
    {lab : Nat → List Char} (hb : Built P ac.nodes lab) (text : List Char)
    (white : List Position) (hno : ∀ k, ¬ Redacted P text white k) :
    FilterWithWhitelist ac text white = some text := by
  obtain ⟨out, r1, r2, r3⟩ := FilterWithWhitelist_spec hb text white
  rw [r1]
  congr 1
  apply List.ext_getElem?
  intro k
  by_cases hk : k < text.length
  · have hc := List.getElem?_eq_getElem hk
    rw [(r3 k _ hc).2 (hno k), hc]
  · rw [List.getElem?_eq_none (by omega), List.getElem?_eq_none (by omega)]

/-! ## The claims -/

/-- Claim C1. Completeness of the scan: on the automaton built from any word
list `P` (every word inserted, then `BuildFailPointer` run once, for whatever
order the child maps are visited in), `MatchPositions` returns, and the
positions it returns are exactly the pairs `{Start, End}` with
`0 <= Start <= End < len(T)` whose code points `T[Start..End]` spell a word of
`P`; overlapping and nested occurrences are all reported. -/
theorem matchPositions_complete (ord : ChildOrder) (P : List (List Char)) (T : List Char) :
    ∃ ac ps, loadWords ord P = some ac ∧ MatchPositions ac T = some ps ∧
      ∀ p : Position, p ∈ ps ↔
        (0 ≤ p.Start ∧ p.Start ≤ p.End ∧ p.End < (T.length : Int) ∧
          (T.drop p.Start.toNat).take (p.End.toNat + 1 - p.Start.toNat) ∈ P) := by
  obtain ⟨ac, lab, h1, h2, _⟩ := loadWords_spec ord P
  obtain ⟨ps, r1, r2⟩ := MatchPositions_spec h2 T
  exact ⟨ac, ps, h1, r1, r2⟩

/-- Claim C2. Coverage of redaction: on a built sensitive automaton, for every
text `T` and every list `W` of whitelist positions, `FilterWithWhitelist`
returns a text with as many code points as `T`; its `k`-th code point is `~`
when `k` lies in an occurrence of a word of `P` whose end index is in no span
of `W`, and is `T[k]` otherwise; so nothing outside every occurrence changes. -/
theorem filterWithWhitelist_coverage (ord : ChildOrder) (P : List (List Char))
    (T : List Char) (W : List Position) :
    ∃ ac out, loadWords ord P = some ac ∧ FilterWithWhitelist ac T W = some out ∧
      out.length = T.length ∧
      ∀ (k : Nat) (c : Char), T[k]? = some c →
        ((∃ p, IsOccurrence P T p ∧ (¬ ∃ w, w ∈ W ∧ p.End ≥ w.Start ∧ p.End ≤ w.End) ∧
            p.Start ≤ (k : Int) ∧ (k : Int) ≤ p.End) → out[k]? = some '~') ∧
        ((¬ ∃ p, IsOccurrence P T p ∧ (¬ ∃ w, w ∈ W ∧ p.End ≥ w.Start ∧ p.End ≤ w.End) ∧
            p.Start ≤ (k : Int) ∧ (k : Int) ≤ p.End) → out[k]? = some c) ∧
        ((¬ ∃ p, IsOccurrence P T p ∧ p.Start ≤ (k : Int) ∧ (k : Int) ≤ p.End) →
          out[k]? = some c) := by
  obtain ⟨ac, lab, h1, h2, _⟩ := loadWords_spec ord P
  obtain ⟨out, r1, r2, r3⟩ := FilterWithWhitelist_spec h2 T W
  refine ⟨ac, out, h1, r1, r2, ?_⟩
  intro k c hc
  refine ⟨(r3 k c hc).1, (r3 k c hc).2, ?_⟩
  intro hno
  apply (r3 k c hc).2
  rintro ⟨p, hp, _, h3, h4⟩
  exact hno ⟨p, hp, h3, h4⟩

/-- Claim C3, as the code has it. With the spans of the whitelist automaton as
whitelist, a code point inside a whitelist span is left as it is when every
sensitive occurrence that covers it ends inside a whitelist span, and is
overwritten with `~` when a sensitive occurrence that covers it ends in no
whitelist span. -/
theorem whitelist_span_kept_unless_overrun (ord : ChildOrder) (P Q : List (List Char))
    (T : List Char) :
    ∃ ac wac white out, loadWords ord P = some ac ∧ loadWords ord Q = some wac ∧
      MatchPositions wac T = some white ∧ FilterWithWhitelist ac T white = some out ∧
      ∀ (k : Nat) (q : Position), q ∈ white → q.Start ≤ (k : Int) → (k : Int) ≤ q.End →
        ((∀ p, IsOccurrence P T p → p.Start ≤ (k : Int) → (k : Int) ≤ p.End →
            Suppressed white p) → out[k]? = T[k]?) ∧
        ((∃ p, IsOccurrence P T p ∧ p.Start ≤ (k : Int) ∧ (k : Int) ≤ p.End ∧
            ¬ Suppressed white p) → out[k]? = some '~') := by
  obtain ⟨ac, lab, h1, h2, _⟩ := loadWords_spec ord P
  obtain ⟨wac, wlab, g1, g2, _⟩ := loadWords_spec ord Q
  obtain ⟨white, w1, w2⟩ := MatchPositions_spec g2 T
  obtain ⟨out, r1, r2, r3⟩ := FilterWithWhitelist_spec h2 T white
  refine ⟨ac, wac, white, out, h1, g1, w1, r1, ?_⟩
  intro k q hq hk1 hk2
  have hocc := (w2 q).1 hq
  have hklt : k < T.length := by
    have := hocc.2.2.1
    omega
  have hc := List.getElem?_eq_getElem hklt
  constructor
  · intro hall
    rw [hc]
    apply (r3 k _ hc).2
    rintro ⟨p, hp, hns, h3, h4⟩
    exact hns (hall p hp h3 h4)
  · rintro ⟨p, hp, h3, h4, hns⟩
    exact (r3 k _ hc).1 ⟨p, hp, hns, h3, h4⟩

/-- Claim C3 fails as stated: with the sensitive word "bad end" and the
whitelist word "good bad", the text "good bad end" has the whitelist span
`{0, 7}`, and the filter overwrites the indices 5 to 7 inside it. -/
theorem whitelist_span_overwritten :
    (loadWords insertionOrder ["good bad".toList]).bind
        (fun wac => MatchPositions wac "good bad end".toList) = some [⟨0, 7⟩] ∧
      engine insertionOrder ["bad end".toList] ["good bad".toList] "good bad end".toList =
        some "good ~~~~~~~".toList := by
  decide!

/-- Claim C4. Idempotence of the sensitive-only filter: when no word of the
list holds the placeholder `~`, filtering a filtered text returns it
unchanged. -/
theorem filter_idempotent (ord : ChildOrder) (P : List (List Char)) (T : List Char)
    (hP : ∀ w, w ∈ P → '~' ∉ w) :
    ∃ ac out, loadWords ord P = some ac ∧ Filter ac T = some out ∧
      Filter ac out = some out := by
  obtain ⟨ac, lab, h1, h2, _⟩ := loadWords_spec ord P
  obtain ⟨out, r1, r2, r3⟩ := FilterWithWhitelist_spec h2 T []
  refine ⟨ac, out, h1, by rw [Filter_eq]; exact r1, ?_⟩
  rw [Filter_eq]
  apply FilterWithWhitelist_fixed h2
  rintro k ⟨p, hp, hns, _, _⟩
  exact hns (occurrence_of_filtered hP r2 r3 hp).2

/-- The hypothesis of `filter_idempotent` holds of the word list ["bad"]. -/
theorem filter_idempotent_witness :
    (∀ w, w ∈ ["bad".toList] → '~' ∉ w) ∧
      ∃ ac out, loadWords insertionOrder ["bad".toList] = some ac ∧
        Filter ac "a bad idea".toList = some out ∧ Filter ac out = some out :=
  ⟨by decide, filter_idempotent insertionOrder ["bad".toList] "a bad idea".toList (by decide)⟩

/-- Claim C5, as the code has it. For automatons built from words none of which
holds the placeholder `~`, the engine returns on every text, and filtering the
filtered text returns it unchanged exactly when every sensitive occurrence of
the text that the first pass leaves whole ends inside a whitelist occurrence of
the text that the first pass leaves whole too. -/
theorem engine_idempotent_iff (ord : ChildOrder) (P Q : List (List Char)) (T : List Char)
    (hP : ∀ w, w ∈ P → '~' ∉ w) (hQ : ∀ w, w ∈ Q → '~' ∉ w) :
    ∃ out, engine ord P Q T = some out ∧
      (engine ord P Q out = some out ↔
        ∀ p, IsOccurrence P T p → Intact P Q T p →
          ∃ q, IsOccurrence Q T q ∧ p.End ≥ q.Start ∧ p.End ≤ q.End ∧ Intact P Q T q) := by
  obtain ⟨ac, lab, h1, h2, _⟩ := loadWords_spec ord P
  obtain ⟨wac, wlab, g1, g2, _⟩ := loadWords_spec ord Q
  obtain ⟨white, w1, w2⟩ := MatchPositions_spec g2 T
  obtain ⟨out, r1, r2, r3⟩ := FilterWithWhitelist_spec h2 T white
  obtain ⟨white1, v1, v2⟩ := MatchPositions_spec g2 out
  obtain ⟨out2, s1, s2, s3⟩ := FilterWithWhitelist_spec h2 out white1
  -- the first pass, in terms of the occurrences of the two word lists
  have hred : ∀ k, Redacted P T white k ↔ EngineRedacts P Q T k := by
    intro k
    unfold Redacted EngineRedacts Suppressed
    constructor
    · rintro ⟨p, hp, hns, h3, h4⟩
      refine ⟨p, hp, ?_, h3, h4⟩
      rintro ⟨q, hq, hq1, hq2⟩
      exact hns ⟨q, (w2 q).2 hq, hq1, hq2⟩
    · rintro ⟨p, hp, hns, h3, h4⟩
      refine ⟨p, hp, ?_, h3, h4⟩
      rintro ⟨q, hq, hq1, hq2⟩
      exact hns ⟨q, (w2 q).1 hq, hq1, hq2⟩
  have hsame : ∀ k : Nat, k < T.length → ¬ EngineRedacts P Q T k → out[k]? = T[k]? := by
    intro k hk hnr
    have hc := List.getElem?_eq_getElem hk
    rw [(r3 k _ hc).2 (fun h => hnr ((hred k).1 h)), hc]
  have hwhole : ∀ r : Position, r.End < (T.length : Int) → Intact P Q T r →
      ∀ k : Nat, r.Start ≤ (k : Int) → (k : Int) ≤ r.End → T[k]? = out[k]? := by
    intro r hr hint k hk1 hk2
    exact (hsame k (by omega) (hint k hk1 hk2)).symm
  -- a range of the filtered text without the placeholder was left whole
  have hclean : ∀ r : Position, r.End < (T.length : Int) →
      (∀ k : Nat, r.Start ≤ (k : Int) → (k : Int) ≤ r.End → out[k]? ≠ some '~') →
      Intact P Q T r := by
    intro r hr hno k hk1 hk2 hk
    have hklt : k < T.length := by omega
    exact hno k hk1 hk2 ((r3 k _ (List.getElem?_eq_getElem hklt)).1 ((hred k).2 hk))
  refine ⟨out, by simp [engine, engineFilter, h1, g1, w1, r1], ?_⟩
  have heng : engine ord P Q out = FilterWithWhitelist ac out white1 := by
    simp [engine, engineFilter, h1, g1, v1]
  rw [heng]
  constructor
  · intro hfix p hp hint
    rw [s1] at hfix
    have hout2 : out2 = out := Option.some.inj hfix
    have hp' : IsOccurrence P out p := hp.transfer r2.symm (hwhole p hp.2.2.1 hint)
    have hsup : Suppressed white1 p := by
      by_contra hns
      have hs := hp'.1
      have he := hp'.2.1
      have hl := hp'.2.2.1
      have hklt : p.End.toNat < out.length := by omega
      have hc := List.getElem?_eq_getElem hklt
      have := (s3 _ _ hc).1 ⟨p, hp', hns, by omega, by omega⟩
      rw [hout2] at this
      exact hp'.no_placeholder hP p.End.toNat (by omega) (by omega) this
    obtain ⟨q, hq, hq1, hq2⟩ := hsup
    have hq' := (v2 q).1 hq
    have hqlen : q.End < (T.length : Int) := by
      have := hq'.2.2.1
      rw [r2] at this
      exact this
    have hqint : Intact P Q T q :=
      hclean q hqlen (fun k hk1 hk2 => hq'.no_placeholder hQ k hk1 hk2)
    exact ⟨q, hq'.transfer r2 (fun k hk1 hk2 => (hwhole q hqlen hqint k hk1 hk2).symm),
      hq1, hq2, hqint⟩
  · intro hcond
    apply FilterWithWhitelist_fixed h2
    rintro k ⟨p, hp', hns, _, _⟩
    have hplen : p.End < (T.length : Int) := by
      have := hp'.2.2.1
      rw [r2] at this
      exact this
    have hpint : Intact P Q T p :=
      hclean p hplen (fun k hk1 hk2 => hp'.no_placeholder hP k hk1 hk2)
    have hp : IsOccurrence P T p :=
      hp'.transfer r2 (fun k hk1 hk2 => (hwhole p hplen hpint k hk1 hk2).symm)
    obtain ⟨q, hq, hq1, hq2, hqint⟩ := hcond p hp hpint
    have hq' : IsOccurrence Q out q := hq.transfer r2.symm (hwhole q hq.2.2.1 hqint)
    exact hns ⟨q, (v2 q).2 hq', hq1, hq2⟩

/-- The hypotheses of `engine_idempotent_iff` hold of the sensitive word "bc" and
the whitelist word "ab"; on the text "abc" the first pass redacts "bc", which
overlaps the whitelist occurrence, and the second pass changes nothing, so the
condition of the theorem holds there. -/
theorem engine_idempotent_iff_witness :
    (∀ w, w ∈ ["bc".toList] → '~' ∉ w) ∧ (∀ w, w ∈ ["ab".toList] → '~' ∉ w) ∧
      engine insertionOrder ["bc".toList] ["ab".toList] "abc".toList = some "a~~".toList ∧
      engine insertionOrder ["bc".toList] ["ab".toList] "a~~".toList = some "a~~".toList ∧
      ∀ p, IsOccurrence ["bc".toList] "abc".toList p →
        Intact ["bc".toList] ["ab".toList] "abc".toList p →
        ∃ q, IsOccurrence ["ab".toList] "abc".toList q ∧ p.End ≥ q.Start ∧ p.End ≤ q.End ∧
          Intact ["bc".toList] ["ab".toList] "abc".toList q := by
  have hP : ∀ w, w ∈ ["bc".toList] → '~' ∉ w := by decide
  have hQ : ∀ w, w ∈ ["ab".toList] → '~' ∉ w := by decide
  have e1 : engine insertionOrder ["bc".toList] ["ab".toList] "abc".toList =
      some "a~~".toList := by decide!
  have e2 : engine insertionOrder ["bc".toList] ["ab".toList] "a~~".toList =
      some "a~~".toList := by decide!
  obtain ⟨out, h1, hiff⟩ :=
    engine_idempotent_iff insertionOrder ["bc".toList] ["ab".toList] "abc".toList hP hQ
  rw [e1] at h1
  have hout : "a~~".toList = out := Option.some.inj h1
  subst hout
  exact ⟨hP, hQ, e1, e2, hiff.1 e2⟩

/-- Claim C5 fails as stated: with the sensitive words "cd" and "b" and the
whitelist word "abc", none of which holds `~`, the engine turns "abcd" into
"ab~~" and "ab~~" into "a~~~". -/
theorem engine_not_idempotent :
    engine insertionOrder ["cd".toList, "b".toList] ["abc".toList] "abcd".toList =
        some "ab~~".toList ∧
      engine insertionOrder ["cd".toList, "b".toList] ["abc".toList] "ab~~".toList =
        some "a~~~".toList := by
  decide!

/-- Claim C6. Whitelist suppression edge rule: with the sensitive word "bad"
and the whitelist word "good bad", the engine returns "this is good bad end"
unchanged and turns "bad alone" into "~~~ alone". In general, on a built
automaton every code point of an occurrence whose end index lies in no
whitelist span becomes `~`, and a code point all of whose covering occurrences
end inside a whitelist span is left as it is. -/
theorem suppression_edge_rule :
    engine insertionOrder ["bad".toList] ["good bad".toList] "this is good bad end".toList =
        some "this is good bad end".toList ∧
      engine insertionOrder ["bad".toList] ["good bad".toList] "bad alone".toList =
        some "~~~ alone".toList ∧
      ∀ (ord : ChildOrder) (P : List (List Char)) (T : List Char) (W : List Position),
        ∃ ac out, loadWords ord P = some ac ∧ FilterWithWhitelist ac T W = some out ∧
          (∀ p, IsOccurrence P T p → (¬ ∃ w, w ∈ W ∧ p.End ≥ w.Start ∧ p.End ≤ w.End) →
            ∀ k : Nat, p.Start ≤ (k : Int) → (k : Int) ≤ p.End → out[k]? = some '~') ∧
          (∀ k : Nat,
            (∀ p, IsOccurrence P T p → p.Start ≤ (k : Int) → (k : Int) ≤ p.End →
              ∃ w, w ∈ W ∧ p.End ≥ w.Start ∧ p.End ≤ w.End) → out[k]? = T[k]?) := by
  refine ⟨by decide!, by decide!, ?_⟩
  intro ord P T W
  obtain ⟨ac, lab, h1, h2, _⟩ := loadWords_spec ord P
  obtain ⟨out, r1, r2, r3⟩ := FilterWithWhitelist_spec h2 T W
  refine ⟨ac, out, h1, r1, ?_, ?_⟩
  · intro p hp hns k hk1 hk2
    have hklt : k < T.length := by
      have := hp.2.2.1
      omega
    exact (r3 k _ (List.getElem?_eq_getElem hklt)).1 ⟨p, hp, hns, hk1, hk2⟩
  · intro k hall
    by_cases hklt : k < T.length
    · have hc := List.getElem?_eq_getElem hklt
      rw [hc]
      apply (r3 k _ hc).2
      rintro ⟨p, hp, hns, h3, h4⟩
      exact hns (hall p hp h3 h4)
    · rw [List.getElem?_eq_none (by omega), List.getElem?_eq_none (by omega)]

/-- Claim C7. Unicode correctness: with the word "测试", `MatchPositions` of
"这是一个测试文本" is exactly `[{4, 5}]` and `Filter` returns "这是一个~~文本"; in
general every reported position is a pair of code-point indices of the text,
and the filtered text has as many code points as the text. -/
theorem unicode_indices :
    (loadWords insertionOrder ["测试".toList]).bind
        (fun ac => MatchPositions ac "这是一个测试文本".toList) = some [⟨4, 5⟩] ∧
      (loadWords insertionOrder ["测试".toList]).bind
        (fun ac => Filter ac "这是一个测试文本".toList) = some "这是一个~~文本".toList ∧
      ∀ (ord : ChildOrder) (P : List (List Char)) (T : List Char),
        ∃ ac ps out, loadWords ord P = some ac ∧ MatchPositions ac T = some ps ∧
          Filter ac T = some out ∧ out.length = T.length ∧
          ∀ p, p ∈ ps → 0 ≤ p.Start ∧ p.Start ≤ p.End ∧ p.End < (T.length : Int) := by
  refine ⟨by decide!, by decide!, ?_⟩
  intro ord P T
  obtain ⟨ac, lab, h1, h2, _⟩ := loadWords_spec ord P
  obtain ⟨ps, r1, r2⟩ := MatchPositions_spec h2 T
  obtain ⟨out, s1, s2, _⟩ := FilterWithWhitelist_spec h2 T []
  refine ⟨ac, ps, out, h1, r1, by rw [Filter_eq]; exact s1, s2, ?_⟩
  intro p hp
  have := (r2 p).1 hp
  exact ⟨this.1, this.2.1, this.2.2.1⟩

theorem loadWords_nil (ord : ChildOrder) : loadWords ord [] = some NewAhoCorasick := by
  have hv : ord.visit 0 [] = [] := (ord.perm 0 []).eq_nil
  simp [loadWords, BuildFailPointer, NewAhoCorasick, bfsLoop, childrenOf, newNode, hv,
    assignChildren]

/-- Claim C8. An empty whitelist means no suppression: on every automaton
`FilterWithWhitelist` with no whitelist position is `Filter`; the automaton
built from no word is the bare root and reports no position in any text; so the
engine with an empty whitelist is the sensitive-only filter. -/
theorem empty_whitelist :
    (∀ (ac : AhoCorasick) (T : List Char), FilterWithWhitelist ac T [] = Filter ac T) ∧
      (∀ ord : ChildOrder, loadWords ord [] = some NewAhoCorasick) ∧
      (∀ T : List Char, MatchPositions NewAhoCorasick T = some []) ∧
      (∀ (ord : ChildOrder) (P : List (List Char)) (T : List Char),
        engine ord P [] T = (loadWords ord P).bind (fun ac => Filter ac T)) := by
  have hempty : ∀ T : List Char, MatchPositions NewAhoCorasick T = some [] := by
    intro T
    obtain ⟨wac, lab, h1, h2, _⟩ := loadWords_spec insertionOrder []
    rw [loadWords_nil] at h1
    have hw : NewAhoCorasick = wac := Option.some.inj h1
    subst hw
    obtain ⟨ps, r1, r2⟩ := MatchPositions_spec h2 T
    rw [r1]
    congr 1
    apply List.eq_nil_iff_forall_not_mem.2
    intro p hp
    exact absurd ((r2 p).1 hp).2.2.2 (List.not_mem_nil _)
  refine ⟨fun ac T => (Filter_eq ac T).symm, loadWords_nil, hempty, ?_⟩
  intro ord P T
  unfold engine
  cases hl : loadWords ord P with
  | none => rfl
  | some ac =>
    simp only [loadWords_nil, engineFilter, hempty, Option.bind]
    exact (Filter_eq ac T).symm

theorem failChain_root {P : List (List Char)} {nodes : List ACNode} {lab : Nat → List Char}
    (hb : Built P nodes lab) :
    ∀ (d n : Nat), n < nodes.length → (lab n).length ≤ d →
      ∃ k, k ≤ d ∧ failChain nodes k n = some 0 := by
  intro d
  induction d with
  | zero =>
    intro n hn hl
    have hnil : lab n = [] := List.length_eq_zero.1 (by omega)
    have hn0 : n = 0 := by
      by_contra hne; exact hb.trie.shape.lab_ne_nil hn hne hnil
    subst hn0
    exact ⟨0, Nat.le_refl _, rfl⟩
  | succ d ih =>
    intro n hn hl
    by_cases hn0 : n = 0
    · subst hn0; exact ⟨0, Nat.zero_le _, rfl⟩
    · obtain ⟨t, ht, t1, _, t3, _⟩ := hb.fail n hn hn0
      obtain ⟨k, hk, hc⟩ := ih t t1 (by omega)
      refine ⟨k + 1, by omega, ?_⟩
      simp only [failChain, ht]
      exact hc

/-- Claim C9. The filter is total on built automatons: for every run of
`Insert`s followed by `BuildFailPointer`, the build returns, and on every text
`Filter`, `FilterWithWhitelist` and `MatchPositions` return a result; every
non-root node has a failure link that points to a node of the automaton, and
the failure chain from every node reaches the root within as many steps as
there are nodes. -/
theorem filter_total (ord : ChildOrder) (words : List (List Char)) :
    ∃ ac, loadWords ord words = some ac ∧
      (∀ (T : List Char) (W : List Position),
        (Filter ac T).isSome = true ∧ (FilterWithWhitelist ac T W).isSome = true ∧
          (MatchPositions ac T).isSome = true) ∧
      (∀ n, n < ac.nodes.length → n ≠ 0 →
        ∃ m, m < ac.nodes.length ∧ failOf ac.nodes n = some m) ∧
      (∀ n, n < ac.nodes.length →
        ∃ k, k ≤ ac.nodes.length ∧ failChain ac.nodes k n = some 0) := by
  obtain ⟨ac, lab, h1, h2, _⟩ := loadWords_spec ord words
  refine ⟨ac, h1, ?_, ?_, ?_⟩
  · intro T W
    obtain ⟨ps, r1, _⟩ := MatchPositions_spec h2 T
    obtain ⟨out, s1, _⟩ := FilterWithWhitelist_spec h2 T W
    obtain ⟨out0, s0, _⟩ := FilterWithWhitelist_spec h2 T []
    refine ⟨by rw [Filter_eq, s0]; rfl, by rw [s1]; rfl, by rw [r1]; rfl⟩
  · intro n hn hn0
    obtain ⟨t, ht, t1, _⟩ := h2.fail n hn hn0
    exact ⟨t, t1, ht⟩
  · intro n hn
    have hd := h2.trie.shape.depth_le n hn
    obtain ⟨k, hk, hc⟩ := failChain_root h2 n n hn hd
    exact ⟨k, by omega, hc⟩

/-- Claim C10. The fused scan-and-redact equals the two-phase design: on a
built sensitive automaton, for every text `T` and whitelist `W`,
`FilterWithWhitelist(T, W)` is `Redact(T, MatchPositions(T), W)`; overwriting
the scanned code points in place does not change which occurrences are found. -/
theorem fused_eq_two_phase (ord : ChildOrder) (P : List (List Char)) (T : List Char)
    (W : List Position) :
    ∃ ac ps, loadWords ord P = some ac ∧ MatchPositions ac T = some ps ∧
      FilterWithWhitelist ac T W = some (Redact T ps W) := by
  obtain ⟨ac, lab, h1, h2, _⟩ := loadWords_spec ord P
  obtain ⟨ps, r1, _⟩ := MatchPositions_spec h2 T
  refine ⟨ac, ps, h1, r1, ?_⟩
  rw [FilterWithWhitelist_eq_Redact, r1]
  rfl

/-! ### Insert twice -/

theorem childOf_grow (l : List ACNode) (node n : Nat) (ch c : Char) (hn : node < l.length)
    (hc : childOf l node ch = none) :
    childOf (modifyNode (fun nd => { nd with children := nd.children ++ [(ch, l.length)] })
      l node ++ [newNode]) n c =
      if n = node ∧ c = ch then some l.length else childOf l n c := by
  rw [childOf_eq, childOf_eq, childrenOf_grow _ _ _ _ hn]
  rw [childOf_eq] at hc
  by_cases h1 : n = node
  · subst h1
    simp only [if_true, true_and]
    rw [mapGet_append]
    by_cases h2 : c = ch
    · subst h2; simp [hc]
    · have : ¬ ch = c := fun h => h2 h.symm
      simp only [h2, this, if_false]
      cases mapGet (childrenOf l n) c <;> rfl
  · simp [h1]

theorem walk_congr {a b : List ACNode} (h : ∀ n, childrenOf b n = childrenOf a n) :
    ∀ (w : List Char) (n : Nat), walk b n w = walk a n w := by
  intro w
  induction w with
  | nil => intro n; rfl
  | cons c cs ih =>
    intro n
    simp only [walk, childOf_eq, h n]
    cases mapGet (childrenOf a n) c with
    | none => rfl
    | some m => exact ih m

/-- A descent that finds every edge creates nothing. -/
theorem insertLoop_of_walk (nodes : List ACNode) :
    ∀ (w : List Char) (n r : Nat), walk nodes n w = some r → insertLoop nodes n w = (nodes, r) := by
  intro w
  induction w with
  | nil =>
    intro n r h
    simp only [walk, Option.some.injEq] at h
    simp [insertLoop, h]
  | cons c cs ih =>
    intro n r h
    simp only [walk] at h
    simp only [insertLoop]
    cases hc : childOf nodes n c with
    | none => rw [hc] at h; exact Option.noConfusion h
    | some m =>
      rw [hc] at h
      exact ih m r h

/-- After the descent of `Insert` the word is spelled from the cell it started
at, and no edge that was there is lost. -/
theorem insertLoop_walk (w : List Char) :
    ∀ (nodes : List ACNode) (node : Nat), ValidHeap nodes → node < nodes.length →
      ValidHeap (insertLoop nodes node w).1 ∧
      nodes.length ≤ (insertLoop nodes node w).1.length ∧
      (insertLoop nodes node w).2 < (insertLoop nodes node w).1.length ∧
      (∀ n c m, childOf nodes n c = some m →
        childOf (insertLoop nodes node w).1 n c = some m) ∧
      walk (insertLoop nodes node w).1 node w = some (insertLoop nodes node w).2 := by
  induction w with
  | nil =>
    intro nodes node hv hn
    exact ⟨hv, Nat.le_refl _, hn, fun _ _ _ h => h, rfl⟩
  | cons ch rest ih =>
    intro nodes node hv hn
    simp only [insertLoop]
    cases hc : childOf nodes node ch with
    | some next =>
      simp only
      obtain ⟨a1, a2, a3, a4, a5⟩ := ih nodes next hv (hv.2 node ch next hc)
      refine ⟨a1, a2, a3, a4, ?_⟩
      simp only [walk, a4 node ch next hc]
      exact a5
    | none =>
      simp only
      have hlen : (modifyNode (fun nd => { nd with children := nd.children ++ [(ch, nodes.length)] })
          nodes node ++ [newNode]).length = nodes.length + 1 := by
        simp [length_modifyNode]
      have hv1 : ValidHeap (modifyNode
          (fun nd => { nd with children := nd.children ++ [(ch, nodes.length)] })
          nodes node ++ [newNode]) := by
        refine ⟨by rw [hlen]; omega, ?_⟩
        intro n c m hm
        rw [hlen]
        rw [childOf_grow _ _ _ _ _ hn hc] at hm
        by_cases h1 : n = node ∧ c = ch
        · simp only [h1, and_self, if_true, Option.some.injEq] at hm
          omega
        · simp only [h1, if_false] at hm
          have := hv.2 n c m hm
          omega
      obtain ⟨a1, a2, a3, a4, a5⟩ := ih _ nodes.length hv1 (by rw [hlen]; omega)
      rw [hlen] at a2
      have hedge : ∀ n c m, childOf nodes n c = some m →
          childOf (modifyNode
            (fun nd => { nd with children := nd.children ++ [(ch, nodes.length)] })
            nodes node ++ [newNode]) n c = some m := by
        intro n c m hm
        rw [childOf_grow _ _ _ _ _ hn hc]
        by_cases h1 : n = node ∧ c = ch
        · obtain ⟨e1, e2⟩ := h1
          subst e1; subst e2
          rw [hc] at hm
          exact Option.noConfusion hm
        · simp only [h1, if_false]
          exact hm
      refine ⟨a1, by omega, a3, fun n c m hm => a4 n c m (hedge n c m hm), ?_⟩
      have hnew := a4 node ch nodes.length (by rw [childOf_grow _ _ _ _ _ hn hc]; simp)
      simp only [walk, hnew]
      exact a5

theorem modifyNode_twice (f : ACNode → ACNode) (hf : ∀ nd, f (f nd) = f nd) :
    ∀ (l : List ACNode) (n : Nat), modifyNode f (modifyNode f l n) n = modifyNode f l n := by
  intro l
  induction l with
  | nil => intro n; cases n <;> rfl
  | cons a l ih =>
    intro n
    cases n with
    | zero => simp [modifyNode, hf]
    | succ n => simp [modifyNode, ih]

theorem Insert_twice (ac : AhoCorasick) (w : List Char) (hv : ValidHeap ac.nodes) :
    Insert (Insert ac w) w = Insert ac w := by
  obtain ⟨_, _, _, _, a5⟩ := insertLoop_walk w ac.nodes 0 hv hv.1
  have hw : walk (Insert ac w).nodes 0 w = some (insertLoop ac.nodes 0 w).2 := by
    rw [← a5]
    exact walk_congr (fun n => childrenOf_setEnd _ _ _ _) w 0
  have hl := insertLoop_of_walk _ w 0 _ hw
  show AhoCorasick.mk _ = AhoCorasick.mk _
  congr 1
  rw [hl]
  exact modifyNode_twice (fun nd => { nd with isEnd := true, length := w.length })
    (fun nd => rfl) (insertLoop ac.nodes 0 w).1 (insertLoop ac.nodes 0 w).2

theorem ValidHeap.after_insert {ac : AhoCorasick} (hv : ValidHeap ac.nodes) (w : List Char) :
    ValidHeap (Insert ac w).nodes := by
  obtain ⟨a1, _, _, _, _⟩ := insertLoop_walk w ac.nodes 0 hv hv.1
  refine ⟨by simp only [Insert, length_modifyNode]; exact a1.1, ?_⟩
  intro n c m hm
  simp only [Insert, length_modifyNode] at hm ⊢
  rw [childOf_eq, childrenOf_setEnd, ← childOf_eq] at hm
  exact a1.2 n c m hm

theorem validHeap_new : ValidHeap NewAhoCorasick.nodes := by
  refine ⟨by simp [NewAhoCorasick], ?_⟩
  intro n c m hm
  cases n with
  | zero => simp [NewAhoCorasick, childOf, newNode, mapGet] at hm
  | succ n => simp [NewAhoCorasick, childOf] at hm

theorem validHeap_foldl (words : List (List Char)) :
    ∀ ac : AhoCorasick, ValidHeap ac.nodes → ValidHeap (words.foldl Insert ac).nodes := by
  induction words with
  | nil => intro ac h; exact h
  | cons w rest ih => intro ac h; exact ih _ (h.after_insert w)

theorem ValidHeap.of_sameChildren {a b : List ACNode} (hv : ValidHeap a)
    (hl : b.length = a.length) (hs : ∀ n, childrenOf b n = childrenOf a n) : ValidHeap b := by
  refine ⟨by rw [hl]; exact hv.1, ?_⟩
  intro n c m hm
  rw [hl]
  rw [childOf_eq, hs n, ← childOf_eq] at hm
  exact hv.2 n c m hm

/-- Claim C11. Insert is idempotent: on every heap (one whose child pointers
point to cells of the heap, as every Go heap does, be it before or after
`BuildFailPointer`) and for every word `w`, `Insert(w); Insert(w)` leaves the
same automaton as a single `Insert(w)`: the same cells with the same child
maps, `fail` links, `isEnd` flags and `length` values. -/
theorem insert_idempotent (ac : AhoCorasick) (w : List Char) (hv : ValidHeap ac.nodes) :
    Insert (Insert ac w) w = Insert ac w :=
  Insert_twice ac w hv

/-- The hypothesis of `insert_idempotent` holds of the automaton left by
inserting "he" and "she" into a new one. -/
theorem insert_idempotent_witness :
    ValidHeap (["he".toList, "she".toList].foldl Insert NewAhoCorasick).nodes ∧
      Insert (Insert (["he".toList, "she".toList].foldl Insert NewAhoCorasick) "his".toList)
          "his".toList =
        Insert (["he".toList, "she".toList].foldl Insert NewAhoCorasick) "his".toList :=
  ⟨validHeap_foldl _ _ validHeap_new,
    insert_idempotent _ _ (validHeap_foldl _ _ validHeap_new)⟩

/-! ### Paths and labels -/

theorem walk_lab {nodes : List ACNode} {lab : Nat → List Char} (h : TrieShape nodes lab) :
    ∀ (w : List Char) (n m : Nat), n < nodes.length →
      (walk nodes n w = some m ↔ m < nodes.length ∧ lab m = lab n ++ w) := by
  intro w
  induction w with
  | nil =>
    intro n m hn
    simp only [walk, Option.some.injEq, List.append_nil]
    constructor
    · intro e; subst e; exact ⟨hn, rfl⟩
    · rintro ⟨hm, e⟩; exact h.injective hn hm e.symm
  | cons c cs ih =>
    intro n m hn
    simp only [walk, childOf_eq]
    constructor
    · intro hw
      cases hc : mapGet (childrenOf nodes n) c with
      | none => rw [hc] at hw; exact Option.noConfusion hw
      | some k =>
        rw [hc] at hw
        obtain ⟨e1, e2, _⟩ := h.edge n c k hn hc
        obtain ⟨hm, hl⟩ := (ih k m e1).1 hw
        exact ⟨hm, by rw [hl, e2]; simp⟩
    · rintro ⟨hm, hl⟩
      obtain ⟨k, hk, hlk⟩ := h.prefix_closed cs (lab n ++ [c]) m hm (by rw [hl]; simp)
      rw [h.child_of_lab hn hk hlk]
      exact (ih k m hk).2 ⟨hm, by rw [hl, hlk]; simp⟩

/-- The path from the root to a cell spells the label of the cell. -/
theorem walk_root {nodes : List ACNode} {lab : Nat → List Char} (h : TrieShape nodes lab)
    (w : List Char) (m : Nat) :
    walk nodes 0 w = some m ↔ m < nodes.length ∧ lab m = w := by
  rw [walk_lab h w 0 m h.pos, h.root, List.nil_append]

/-- The labels of the trie of `P` are the prefixes of the words of `P`, and the
empty string. -/
theorem TrieFor.label_iff {P : List (List Char)} {nodes : List ACNode}
    {lab : Nat → List Char} (h : TrieFor P nodes lab) (s : List Char) :
    (∃ m, m < nodes.length ∧ lab m = s) ↔ s = [] ∨ ∃ w, w ∈ P ∧ s <+: w := by
  constructor
  · rintro ⟨m, hm, hl⟩
    by_cases h0 : m = 0
    · left; rw [← hl, h0, h.shape.root]
    · right
      obtain ⟨w, hw, hp⟩ := h.pre m hm h0
      exact ⟨w, hw, hl ▸ hp⟩
  · rintro (hs | ⟨w, hw, t, ht⟩)
    · exact ⟨0, h.shape.pos, by rw [hs, h.shape.root]⟩
    · obtain ⟨k, hk, hlk⟩ := h.word w hw
      exact h.shape.prefix_closed t s k hk (by rw [hlk, ht])

/-! ## The claims on the builder, the scanner and the handler -/

theorem isOccurrence_filter (P : List (List Char)) (T : List Char) (p : Position) :
    IsOccurrence (P.filter (fun w => decide (w ≠ []))) T p ↔ IsOccurrence P T p := by
  unfold IsOccurrence
  constructor
  · rintro ⟨h1, h2, h3, h4⟩
    exact ⟨h1, h2, h3, (List.mem_filter.1 h4).1⟩
  · rintro ⟨h1, h2, h3, h4⟩
    refine ⟨h1, h2, h3, List.mem_filter.2 ⟨h4, ?_⟩⟩
    simp only [ne_eq, decide_not, Bool.not_eq_eq_eq_not, Bool.not_true, decide_eq_false_iff_not]
    intro he
    have := congrArg List.length he
    rw [List.length_take, List.length_drop] at this
    simp at this
    omega

/-- Claim C12, as the code has it. Inserting the empty word marks the root as a
pattern end of length 0, but the scan never tests the root: on the built
automaton `MatchPositions` reports no zero-length occurrence `{i+1, i}`, and
reports exactly the occurrences of the non-empty words. -/
theorem empty_word_not_reported (ord : ChildOrder) (P : List (List Char)) (T : List Char)
    (hP : [] ∈ P) :
    ∃ ac ps, loadWords ord P = some ac ∧ isEndOf ac.nodes 0 = true ∧
      lengthOf ac.nodes 0 = 0 ∧ MatchPositions ac T = some ps ∧
      (∀ i : Nat, (⟨(i : Int) + 1, (i : Int)⟩ : Position) ∉ ps) ∧
      ∀ p, p ∈ ps ↔ IsOccurrence (P.filter (fun w => decide (w ≠ []))) T p := by
  obtain ⟨ac, lab, h1, h2, _⟩ := loadWords_spec ord P
  obtain ⟨ps, r1, r2⟩ := MatchPositions_spec h2 T
  have hend : isEndOf ac.nodes 0 = true :=
    (h2.trie.ends 0 h2.trie.shape.pos).2 (by rw [h2.trie.shape.root]; exact hP)
  refine ⟨ac, ps, h1, hend, ?_, r1, ?_, ?_⟩
  · rw [h2.trie.len 0 h2.trie.shape.pos hend, h2.trie.shape.root]; rfl
  · intro i hi
    have := ((r2 _).1 hi).2.1
    simp only at this
    omega
  · intro p
    rw [r2 p, isOccurrence_filter]

/-- The hypothesis of `empty_word_not_reported` holds of the word list that
holds the empty word only. -/
theorem empty_word_not_reported_witness :
    ([] : List Char) ∈ [([] : List Char)] ∧
      ∃ ac ps, loadWords insertionOrder [[]] = some ac ∧ isEndOf ac.nodes 0 = true ∧
        lengthOf ac.nodes 0 = 0 ∧ MatchPositions ac "ab".toList = some ps ∧
        (∀ i : Nat, (⟨(i : Int) + 1, (i : Int)⟩ : Position) ∉ ps) ∧
        ∀ p, p ∈ ps ↔
          IsOccurrence ([([] : List Char)].filter (fun w => decide (w ≠ []))) "ab".toList p :=
  ⟨by decide, empty_word_not_reported insertionOrder [[]] "ab".toList (by decide)⟩

/-- Claim C12 fails as stated: after the empty word is inserted and the
automaton built, the root is a pattern end of length 0, and `MatchPositions` of
"ab" is empty: neither `{1, 0}` nor `{2, 1}` is registered. -/
theorem empty_word_no_occurrence :
    (loadWords insertionOrder [[]]).map
        (fun ac => (isEndOf ac.nodes 0, lengthOf ac.nodes 0, MatchPositions ac "ab".toList)) =
      some (true, 0, some []) := by
  decide!

/-- Claim C14. Shape of every occurrence: on a built automaton every position
that `MatchPositions` returns has `0 <= Start <= End < len(T)`, and there is a
non-root pattern-end node, reached from the root by the code points
`T[Start..End]`, whose `length` field is `End - Start + 1` and is the number of
code points of that inserted word. -/
theorem occurrence_shape (ord : ChildOrder) (P : List (List Char)) (T : List Char) :
    ∃ ac ps, loadWords ord P = some ac ∧ MatchPositions ac T = some ps ∧
      ∀ p, p ∈ ps →
        0 ≤ p.Start ∧ p.Start ≤ p.End ∧ p.End < (T.length : Int) ∧
        ∃ m w, m < ac.nodes.length ∧ m ≠ 0 ∧ isEndOf ac.nodes m = true ∧
          walk ac.nodes 0 w = some m ∧ w ∈ P ∧
          w = (T.drop p.Start.toNat).take (p.End.toNat + 1 - p.Start.toNat) ∧
          p.End - p.Start + 1 = (lengthOf ac.nodes m : Int) ∧
          lengthOf ac.nodes m = w.length := by
  obtain ⟨ac, lab, h1, h2, _⟩ := loadWords_spec ord P
  obtain ⟨ps, r1, r2⟩ := MatchPositions_spec h2 T
  refine ⟨ac, ps, h1, r1, ?_⟩
  intro p hp
  obtain ⟨a1, a2, a3, a4⟩ := (r2 p).1 hp
  refine ⟨a1, a2, a3, ?_⟩
  obtain ⟨m, hm, hl⟩ := h2.trie.word _ a4
  have hend : isEndOf ac.nodes m = true := (h2.trie.ends m hm).2 (by rw [hl]; exact a4)
  have hlen := h2.trie.len m hm hend
  have hwl : (lab m).length = p.End.toNat + 1 - p.Start.toNat := by
    rw [hl, List.length_take, List.length_drop]; omega
  have hm0 : m ≠ 0 := by
    intro h0
    rw [h0, h2.trie.shape.root] at hwl
    simp at hwl
    omega
  refine ⟨m, lab m, hm, hm0, hend, (walk_root h2.trie.shape _ _).2 ⟨hm, rfl⟩,
    by rw [hl]; exact a4, hl, ?_, hlen⟩
  rw [hlen, hwl]
  omega

/-- Claim C15. Correctness of failure links: after any list of words is
inserted and `BuildFailPointer` run, for every non-root node `n` whose path
from the root spells `p`, `n.fail` is the node whose path spells the longest
proper suffix of `p` that is a prefix of some inserted word (the root when that
suffix is empty). -/
theorem failure_links_correct (ord : ChildOrder) (P : List (List Char)) :
    ∃ ac, loadWords ord P = some ac ∧
      ∀ (n : Nat) (p : List Char), n ≠ 0 → walk ac.nodes 0 p = some n →
        ∃ t s, failOf ac.nodes n = some t ∧ walk ac.nodes 0 s = some t ∧
          s <:+ p ∧ s.length < p.length ∧ (∃ w, w ∈ P ∧ s <+: w) ∧
          ∀ s1 : List Char, s1 <:+ p → s1.length < p.length → (∃ w, w ∈ P ∧ s1 <+: w) →
            s1.length ≤ s.length := by
  obtain ⟨ac, lab, h1, h2, _⟩ := loadWords_spec ord P
  refine ⟨ac, h1, ?_⟩
  intro n p hn0 hw
  obtain ⟨hn, hl⟩ := (walk_root h2.trie.shape p n).1 hw
  obtain ⟨t, ht, t1, t2, t3, t4⟩ := h2.fail n hn hn0
  rw [hl] at t2 t3 t4
  refine ⟨t, lab t, ht, (walk_root h2.trie.shape _ _).2 ⟨t1, rfl⟩, t2, t3, ?_, ?_⟩
  · by_cases ht0 : t = 0
    · obtain ⟨w, hw1, _⟩ := h2.trie.pre n hn hn0
      exact ⟨w, hw1, by rw [ht0, h2.trie.shape.root]; exact List.nil_prefix⟩
    · exact h2.trie.pre t t1 ht0
  · intro s1 hs1 hlen hpre
    obtain ⟨m, hm, hlm⟩ := (h2.trie.label_iff s1).2 (Or.inr hpre)
    have := t4 m hm (by rw [hlm]; exact hs1) (by rw [hlm]; exact hlen)
    rw [hlm] at this
    exact this

/-- Claim C16. Failure-link depth invariant: after any run of `Insert`s followed
by `BuildFailPointer`, the failure target of every non-root node is a node of
the same trie whose path from the root is strictly shorter than the node's own,
and following failure links from any node reaches the root. -/
theorem failure_links_shallower (ord : ChildOrder) (words : List (List Char)) :
    ∃ ac, loadWords ord words = some ac ∧
      (∀ n, n < ac.nodes.length → n ≠ 0 →
        ∃ t p s, failOf ac.nodes n = some t ∧ t < ac.nodes.length ∧
          walk ac.nodes 0 p = some n ∧ walk ac.nodes 0 s = some t ∧ s.length < p.length) ∧
      (∀ (n : Nat) (p : List Char), walk ac.nodes 0 p = some n →
        ∃ k, k ≤ p.length ∧ failChain ac.nodes k n = some 0) := by
  obtain ⟨ac, lab, h1, h2, _⟩ := loadWords_spec ord words
  refine ⟨ac, h1, ?_, ?_⟩
  · intro n hn hn0
    obtain ⟨t, ht, t1, _, t3, _⟩ := h2.fail n hn hn0
    exact ⟨t, lab n, lab t, ht, t1, (walk_root h2.trie.shape _ _).2 ⟨hn, rfl⟩,
      (walk_root h2.trie.shape _ _).2 ⟨t1, rfl⟩, t3⟩
  · intro n p hw
    obtain ⟨hn, hl⟩ := (walk_root h2.trie.shape p n).1 hw
    exact failChain_root h2 p.length n hn (by rw [hl])

/-- Claim C13. Request validation boundary: with built automatons, both
handlers answer every `word`; the answer is the client error 400 exactly when
`word` is empty (or absent) or has more than 3000 code points, so a text of
3000 code points is accepted and one of 3001 is rejected; every accepted
request is answered 200 with the fixed prefix followed by the filter result. -/
theorem request_validation (ord : ChildOrder) (P Q : List (List Char)) (word : List Char) :
    ∃ ac wac r1 r2, loadWords ord P = some ac ∧ loadWords ord Q = some wac ∧
      shenheHandler ac word = some r1 ∧ shenheHandlerWhite ac wac word = some r2 ∧
      (r1.status = 400 ↔ word = [] ∨ 3000 < word.length) ∧
      (r2.status = 400 ↔ word = [] ∨ 3000 < word.length) ∧
      (word.length = 3000 → r1.status = 200 ∧ r2.status = 200) ∧
      (word.length = 3001 → r1.status = 400 ∧ r2.status = 400) ∧
      (¬ (word = [] ∨ 3000 < word.length) →
        ∃ o1 o2, Filter ac word = some o1 ∧ engineFilter ac wac word = some o2 ∧
          r1 = ⟨200, "过滤后的文本：".toList ++ o1⟩ ∧
          r2 = ⟨200, "过滤后的文本：".toList ++ o2⟩) := by
  obtain ⟨ac, lab, h1, h2, _⟩ := loadWords_spec ord P
  obtain ⟨wac, wlab, g1, g2, _⟩ := loadWords_spec ord Q
  obtain ⟨white, w1, _⟩ := MatchPositions_spec g2 word
  obtain ⟨o2, s2, _⟩ := FilterWithWhitelist_spec h2 word white
  obtain ⟨o1, s1, _⟩ := FilterWithWhitelist_spec h2 word []
  rw [← Filter_eq] at s1
  by_cases he : word = []
  · refine ⟨ac, wac, httpError "缺少 'word' 参数" 400, httpError "缺少 'word' 参数" 400, h1, g1,
      by simp [shenheHandler, he], by simp [shenheHandlerWhite, he], ?_, ?_, ?_, ?_, ?_⟩
    · simp [httpError, he]
    · simp [httpError, he]
    · intro hl; rw [he] at hl; simp at hl
    · intro _; simp [httpError]
    · intro hn; exact absurd (Or.inl he) hn
  · by_cases hlong : 3000 < word.length
    · refine ⟨ac, wac, httpError "字符数超过最大限制（3000字符）" 400,
        httpError "字符数超过最大限制（3000字符）" 400, h1, g1,
        by simp [shenheHandler, he, hlong], by simp [shenheHandlerWhite, he, hlong],
        ?_, ?_, ?_, ?_, ?_⟩
      · simp [httpError, hlong]
      · simp [httpError, hlong]
      · intro hl; omega
      · intro _; simp [httpError]
      · intro hn; exact absurd (Or.inr hlong) hn
    · have hgt : ¬ word.length > 3000 := hlong
      refine ⟨ac, wac, ⟨200, "过滤后的文本：".toList ++ o1⟩, ⟨200, "过滤后的文本：".toList ++ o2⟩,
        h1, g1, by simp [shenheHandler, he, hgt, s1],
        by simp [shenheHandlerWhite, he, hgt, w1, s2], ?_, ?_, ?_, ?_, ?_⟩
      · simp [he, hlong]
      · simp [he, hlong]
      · intro _; exact ⟨rfl, rfl⟩
      · intro hl; omega
      · intro _
        exact ⟨o1, o2, s1, by simp [engineFilter, w1, s2], rfl, rfl⟩

/-- Claim C17, as the code has it. The filter can treat a sensitive occurrence
as whitelisted although its range is not contained in any whitelist span: with
the sensitive word "ab" and the whitelist word "b", the occurrence `{0, 1}` in
"ab" starts before the only span `{1, 1}`, and "ab" is returned unchanged. But
an occurrence that the filter treats as whitelisted always has its end index,
an index of its own range, inside a whitelist span: it overlaps that span. -/
theorem over_suppression_containment :
    ((loadWords insertionOrder ["b".toList]).bind
        (fun wac => MatchPositions wac "ab".toList) = some [⟨1, 1⟩] ∧
      (loadWords insertionOrder ["ab".toList]).bind
        (fun ac => MatchPositions ac "ab".toList) = some [⟨0, 1⟩] ∧
      isInWhiteList 1 [⟨1, 1⟩] = true ∧
      engine insertionOrder ["ab".toList] ["b".toList] "ab".toList = some "ab".toList) ∧
    ∀ (P : List (List Char)) (T : List Char) (W : List Position) (p : Position),
      IsOccurrence P T p → isInWhiteList p.End.toNat W = true →
        ∃ w k, w ∈ W ∧ p.Start ≤ (k : Int) ∧ (k : Int) ≤ p.End ∧
          w.Start ≤ (k : Int) ∧ (k : Int) ≤ w.End := by
  refine ⟨by decide!, ?_⟩
  intro P T W p hp hw
  have h1 := hp.1
  have h2 := hp.2.1
  obtain ⟨w, hw1, hw2, hw3⟩ := (isInWhiteList_iff p.End.toNat p.Start W).1 hw
  simp only at hw2 hw3
  exact ⟨w, p.End.toNat, hw1, by omega, by omega, by omega, by omega⟩

/-- Claim C17 fails as stated: there is no word list, text, whitelist and
occurrence for which the whitelist test of `FilterWithWhitelist` is true
although the range of the occurrence shares no index with any whitelist span. -/
theorem no_over_suppression_overlap :
    ¬ ∃ (P : List (List Char)) (T : List Char) (W : List Position) (p : Position),
      IsOccurrence P T p ∧ isInWhiteList p.End.toNat W = true ∧
        ¬ ∃ w k, w ∈ W ∧ p.Start ≤ (k : Int) ∧ (k : Int) ≤ p.End ∧
          w.Start ≤ (k : Int) ∧ (k : Int) ≤ w.End := by
  rintro ⟨P, T, W, p, hp, hw, hno⟩
  apply hno
  have h1 := hp.1
  have h2 := hp.2.1
  obtain ⟨w, hw1, hw2, hw3⟩ := (isInWhiteList_iff p.End.toNat p.Start W).1 hw
  simp only at hw2 hw3
  exact ⟨w, p.End.toNat, hw1, by omega, by omega, by omega, by omega⟩

/-! ### The order of the child maps -/

theorem lps_unique {nodes : List ACNode} {lab : Nat → List Char} (h : TrieShape nodes lab)
    {w : List Char} {t t1 : Nat} (ht : LongestProperSuffix nodes.length lab w t)
    (ht1 : LongestProperSuffix nodes.length lab w t1) : t = t1 := by
  obtain ⟨a1, a2, a3, a4⟩ := ht
  obtain ⟨b1, b2, b3, b4⟩ := ht1
  have h1 := a4 t1 b1 b2 b3
  have h2 := b4 t a1 a2 a3
  have hs := List.suffix_of_suffix_length_le a2 b2 h2
  exact h.injective a1 b1 (hs.eq_of_length (by omega))

theorem failOf_out (l : List ACNode) (n : Nat) (h : l.length ≤ n) : failOf l n = none := by
  unfold failOf; simp [List.getElem?_eq_none h]

theorem heap_ext {a b : List ACNode} (hl : a.length = b.length)
    (h : ∀ n, childrenOf a n = childrenOf b n ∧ failOf a n = failOf b n ∧
      isEndOf a n = isEndOf b n ∧ lengthOf a n = lengthOf b n) : a = b := by
  apply List.ext_getElem?
  intro n
  by_cases hn : n < a.length
  · have hb : n < b.length := by omega
    obtain ⟨h1, h2, h3, h4⟩ := h n
    unfold childrenOf at h1
    unfold failOf at h2
    unfold isEndOf at h3
    unfold lengthOf at h4
    rw [List.getElem?_eq_getElem hn, List.getElem?_eq_getElem hb] at h1 h2 h3 h4 ⊢
    simp only at h1 h2 h3 h4
    congr 1
    cases ha : a[n]
    cases hb1 : b[n]
    rw [ha, hb1] at h1 h2 h3 h4
    simp only at h1 h2 h3 h4
    simp [h1, h2, h3, h4]
  · rw [List.getElem?_eq_none (by omega), List.getElem?_eq_none (by omega)]

/-- Two built automatons over the same trie are the same heap. -/
theorem built_unique {P : List (List Char)} {a b c : List ACNode} {lab : Nat → List Char}
    (ha : Built P a lab) (hb : Built P b lab) (sa : SameShape c a) (sb : SameShape c b) :
    a = b := by
  have hl : a.length = b.length := by rw [sa.1, sb.1]
  apply heap_ext hl
  intro n
  refine ⟨by rw [(sa.2 n).1, (sb.2 n).1], ?_, by rw [(sa.2 n).2.1, (sb.2 n).2.1],
    by rw [(sa.2 n).2.2, (sb.2 n).2.2]⟩
  by_cases hn : n < a.length
  · by_cases hn0 : n = 0
    · rw [hn0, ha.root, hb.root]
    · obtain ⟨t, ht, hlps⟩ := ha.fail n hn hn0
      obtain ⟨t1, ht1, hlps1⟩ := hb.fail n (by omega) hn0
      rw [ht, ht1]
      rw [← hl] at hlps1
      rw [lps_unique ha.trie.shape hlps hlps1]
  · rw [failOf_out _ _ (by omega), failOf_out _ _ (by omega)]

/-- Claim C18. Determinism with respect to child iteration order: whatever the
orders in which two runs of `BuildFailPointer` visit the child maps, they leave
the same automaton after the same `Insert`s, with the same failure link at
every node; hence `Filter`, `FilterWithWhitelist` and `MatchPositions` give the
same result on every text. -/
theorem build_order_independent (ord1 ord2 : ChildOrder) (words : List (List Char)) :
    loadWords ord1 words = loadWords ord2 words ∧
      (∀ n, (loadWords ord1 words).map (fun ac => failOf ac.nodes n) =
        (loadWords ord2 words).map (fun ac => failOf ac.nodes n)) ∧
      ∀ (T : List Char) (W : List Position),
        (loadWords ord1 words).bind (fun ac => Filter ac T) =
          (loadWords ord2 words).bind (fun ac => Filter ac T) ∧
        (loadWords ord1 words).bind (fun ac => FilterWithWhitelist ac T W) =
          (loadWords ord2 words).bind (fun ac => FilterWithWhitelist ac T W) ∧
        (loadWords ord1 words).bind (fun ac => MatchPositions ac T) =
          (loadWords ord2 words).bind (fun ac => MatchPositions ac T) := by
  have key : loadWords ord1 words = loadWords ord2 words := by
    obtain ⟨lab, h, hf⟩ := trieFor_words words
    obtain ⟨a, a1, a2, a3⟩ := BuildFailPointer_spec ord1 h hf
    obtain ⟨b, b1, b2, b3⟩ := BuildFailPointer_spec ord2 h hf
    unfold loadWords
    rw [a1, b1]
    have := built_unique a3 b3 a2 b2
    cases a; cases b
    simp only at this
    rw [this]
  refine ⟨key, fun n => by rw [key], fun T W => ⟨by rw [key], by rw [key], by rw [key]⟩⟩

/-- Claim C20. The filter depends only on the set of patterns: two word lists
with the same words, in any order and with any repetitions, give automatons
with the same `Filter(T)` and the same set of `MatchPositions(T)`, on every
text `T`. -/
theorem filter_depends_on_set (ord1 ord2 : ChildOrder) (L1 L2 : List (List Char))
    (T : List Char) (hset : ∀ w, w ∈ L1 ↔ w ∈ L2) :
    ∃ ac1 ac2 ps1 ps2 out, loadWords ord1 L1 = some ac1 ∧ loadWords ord2 L2 = some ac2 ∧
      Filter ac1 T = some out ∧ Filter ac2 T = some out ∧
      MatchPositions ac1 T = some ps1 ∧ MatchPositions ac2 T = some ps2 ∧
      ∀ p, p ∈ ps1 ↔ p ∈ ps2 := by
  obtain ⟨ac1, lab1, h1, b1, _⟩ := loadWords_spec ord1 L1
  obtain ⟨ac2, lab2, h2, b2, _⟩ := loadWords_spec ord2 L2
  obtain ⟨ps1, m1, r1⟩ := MatchPositions_spec b1 T
  obtain ⟨ps2, m2, r2⟩ := MatchPositions_spec b2 T
  obtain ⟨o1, f1, l1, c1⟩ := FilterWithWhitelist_spec b1 T []
  obtain ⟨o2, f2, l2, c2⟩ := FilterWithWhitelist_spec b2 T []
  have hocc : ∀ p, IsOccurrence L1 T p ↔ IsOccurrence L2 T p := by
    intro p
    unfold IsOccurrence
    rw [hset]
  have hred : ∀ k, Redacted L1 T [] k ↔ Redacted L2 T [] k := by
    intro k
    unfold Redacted
    constructor
    · rintro ⟨p, hp, hr⟩; exact ⟨p, (hocc p).1 hp, hr⟩
    · rintro ⟨p, hp, hr⟩; exact ⟨p, (hocc p).2 hp, hr⟩
  have ho : o1 = o2 := by
    apply List.ext_getElem?
    intro k
    by_cases hk : k < T.length
    · have hc := List.getElem?_eq_getElem hk
      by_cases hr : Redacted L1 T [] k
      · rw [(c1 k _ hc).1 hr, (c2 k _ hc).1 ((hred k).1 hr)]
      · rw [(c1 k _ hc).2 hr, (c2 k _ hc).2 (fun h => hr ((hred k).2 h))]
    · rw [List.getElem?_eq_none (by omega), List.getElem?_eq_none (by omega)]
  subst ho
  refine ⟨ac1, ac2, ps1, ps2, o1, h1, h2, by rw [Filter_eq]; exact f1,
    by rw [Filter_eq]; exact f2, m1, m2, ?_⟩
  intro p
  rw [r1 p, r2 p, hocc p]

/-- The hypothesis of `filter_depends_on_set` holds of the lists ["he", "she"]
and ["she", "he", "she"]. -/
theorem filter_depends_on_set_witness :
    (∀ w, w ∈ ["he".toList, "she".toList] ↔ w ∈ ["she".toList, "he".toList, "she".toList]) ∧
      ∃ ac1 ac2 ps1 ps2 out,
        loadWords insertionOrder ["he".toList, "she".toList] = some ac1 ∧
        loadWords insertionOrder ["she".toList, "he".toList, "she".toList] = some ac2 ∧
        Filter ac1 "ushers".toList = some out ∧ Filter ac2 "ushers".toList = some out ∧
        MatchPositions ac1 "ushers".toList = some ps1 ∧
        MatchPositions ac2 "ushers".toList = some ps2 ∧ ∀ p, p ∈ ps1 ↔ p ∈ ps2 := by
  have hset : ∀ w, w ∈ ["he".toList, "she".toList] ↔
      w ∈ ["she".toList, "he".toList, "she".toList] := by
    intro w
    simp only [List.mem_cons, List.mem_singleton, List.not_mem_nil, or_false]
    tauto
  exact ⟨hset, filter_depends_on_set insertionOrder insertionOrder _ _ _ hset⟩

/-! ### The guard of the redaction loop -/

theorem length_redactLoop (i : Nat) :
    ∀ (n j : Nat) (st : List Char × Bool), (redactLoop i n j st).1.length = st.1.length := by
  intro n
  induction n with
  | zero => intro j st; rfl
  | succ n ih =>
    intro j st
    simp only [redactLoop]
    split
    · rw [ih]; simp
    · exact ih _ _

theorem redactLoopStrict_eq (i : Nat) :
    ∀ (n j : Nat) (st : List Char × Bool), n + j ≤ i + 1 → i < st.1.length →
      redactLoopStrict i n j st = some (redactLoop i n j st) := by
  intro n
  induction n with
  | zero => intro j st _ _; rfl
  | succ n ih =>
    intro j st hn hi
    have hg : (i : Int) - (j : Int) ≥ 0 := by omega
    have hlt : i - j < st.1.length := by omega
    simp only [redactLoopStrict, redactLoop, hg, hlt, and_self, if_true]
    exact ih (j + 1) _ (by omega) (by simpa using hi)

theorem length_whiteWalk (nodes : List ACNode) (white : List Position) (i : Nat) :
    ∀ (fuel : Nat) (tmp : Option Nat) (st st1 : List Char × Bool),
      whiteWalk nodes white i fuel tmp st = some st1 → st1.1.length = st.1.length := by
  intro fuel
  induction fuel with
  | zero =>
    intro tmp st st1 h
    cases tmp with
    | none => simp [whiteWalk] at h
    | some t =>
      by_cases ht : t = 0
      · simp [whiteWalk, ht] at h; rw [← h]
      · simp [whiteWalk, ht] at h
  | succ fuel ih =>
    intro tmp st st1 h
    cases tmp with
    | none => simp [whiteWalk] at h
    | some t =>
      by_cases ht : t = 0
      · simp [whiteWalk, ht] at h; rw [← h]
      · simp only [whiteWalk, ht, ne_eq, not_false_eq_true, if_true] at h
        rw [ih _ _ _ h]
        split
        · split
          · exact length_redactLoop _ _ _ _
          · rfl
        · rfl

theorem whiteWalkStrict_eq {P : List (List Char)} {nodes : List ACNode} {lab : Nat → List Char}
    (hb : Built P nodes lab) (white : List Position) (i : Nat) :
    ∀ (fuel tmp : Nat) (st : List Char × Bool), tmp < nodes.length →
      (lab tmp).length ≤ i + 1 → i < st.1.length →
      whiteWalkStrict nodes white i fuel (some tmp) st =
        whiteWalk nodes white i fuel (some tmp) st := by
  intro fuel
  induction fuel with
  | zero =>
    intro tmp st _ _ _
    by_cases ht : tmp = 0
    · simp [whiteWalkStrict, whiteWalk, ht]
    · simp [whiteWalkStrict, whiteWalk, ht]
  | succ fuel ih =>
    intro tmp st htmp hd hi
    by_cases ht : tmp = 0
    · simp [whiteWalkStrict, whiteWalk, ht]
    · obtain ⟨t, hft, t1, _, t3, _⟩ := hb.fail tmp htmp ht
      simp only [whiteWalkStrict, whiteWalk, ht, ne_eq, not_false_eq_true, if_true, hft]
      by_cases hend : isEndOf nodes tmp = true
      · have hlen := hb.trie.len tmp htmp hend
        by_cases hwl : isInWhiteList i white = false
        · simp only [hend, hwl, and_self, if_true, Bool.not_false]
          rw [redactLoopStrict_eq i _ 0 st (by omega) hi]
          simp only
          exact ih t _ t1 (by omega) (by rw [length_redactLoop]; exact hi)
        · have hwl1 : isInWhiteList i white = true := by
            cases h : isInWhiteList i white
            · exact absurd h hwl
            · rfl
          simp only [hend, hwl1, Bool.true_eq_false, and_false, if_false, Bool.not_true,
            if_true]
          exact ih t _ t1 (by omega) hi
      · simp only [hend, false_and, if_false, Bool.false_eq_true]
        exact ih t _ t1 (by omega) hi

theorem whiteLoopStrict_eq {P : List (List Char)} {nodes : List ACNode} {lab : Nat → List Char}
    (hb : Built P nodes lab) (white : List Position) :
    ∀ (k i node : Nat) (st : List Char × Bool) (w : List Char), w.length = i →
      LongestSuffix nodes.length lab w node →
      whiteLoopStrict nodes white k i node st = whiteLoop nodes white k i node st := by
  intro k
  induction k with
  | zero => intro i node st w _ _; rfl
  | succ k ih =>
    intro i node st w hw hnode
    simp only [whiteLoopStrict, whiteLoop]
    cases hch : st.1[i]? with
    | none => rfl
    | some ch =>
      simp only
      have hi : i < st.1.length := by
        by_contra hge
        rw [List.getElem?_eq_none (by omega)] at hch
        exact Option.noConfusion hch
      obtain ⟨s, s1, s2⟩ := advance_spec hb w ch node hnode
      rw [s1]
      simp only
      have hd : (lab s).length ≤ i + 1 := by
        have := s2.2.1.length_le
        simp at this
        omega
      rw [whiteWalkStrict_eq hb white i nodes.length s st s2.1 hd hi]
      cases hwalk : whiteWalk nodes white i nodes.length (some s) st with
      | none => rfl
      | some st1 =>
        simp only
        exact ih (i + 1) s st1 (w ++ [ch]) (by simp [hw]) s2

theorem FilterWithWhitelistStrict_eq {P : List (List Char)} {ac : AhoCorasick}
    {lab : Nat → List Char} (hb : Built P ac.nodes lab) (text : List Char)
    (white : List Position) :
    FilterWithWhitelistStrict ac text white = FilterWithWhitelist ac text white := by
  unfold FilterWithWhitelistStrict FilterWithWhitelist
  rw [whiteLoopStrict_eq hb white text.length 0 0 (text, false) [] rfl
    (longestSuffix_start hb.trie.shape text)]

theorem scanNode_spec {P : List (List Char)} {nodes : List ACNode} {lab : Nat → List Char}
    (hb : Built P nodes lab) (text : List Char) :
    ∀ i, i ≤ text.length →
      ∃ s, scanNode nodes text i = some s ∧ LongestSuffix nodes.length lab (text.take i) s := by
  intro i
  induction i with
  | zero => intro _; exact ⟨0, rfl, longestSuffix_start hb.trie.shape text⟩
  | succ i ih =>
    intro hi
    have hlt : i < text.length := by omega
    obtain ⟨s, s1, s2⟩ := ih (by omega)
    obtain ⟨s3, a1, a2⟩ := advance_spec hb (text.take i) text[i] s s2
    have htake : text.take i ++ [text[i]] = text.take (i + 1) := by
      rw [List.take_succ, List.getElem?_eq_getElem hlt]; rfl
    rw [htake] at a2
    refine ⟨s3, ?_, a2⟩
    simp only [scanNode, s1, List.getElem?_eq_getElem hlt]
    exact a1

theorem failChain_depth {P : List (List Char)} {nodes : List ACNode} {lab : Nat → List Char}
    (hb : Built P nodes lab) :
    ∀ (k s t : Nat), s < nodes.length → failChain nodes k s = some t →
      t < nodes.length ∧ (lab t).length ≤ (lab s).length := by
  intro k
  induction k with
  | zero =>
    intro s t hs h
    simp only [failChain, Option.some.injEq] at h
    subst h
    exact ⟨hs, Nat.le_refl _⟩
  | succ k ih =>
    intro s t hs h
    simp only [failChain] at h
    by_cases hs0 : s = 0
    · rw [hs0, hb.root] at h
      exact Option.noConfusion h
    · obtain ⟨m, hm, m1, _, m3, _⟩ := hb.fail s hs hs0
      rw [hm] at h
      obtain ⟨r1, r2⟩ := ih m t m1 h
      exact ⟨r1, by omega⟩

/-- Claim C19. The bounds guard in the redaction loop is never false: on a
built automaton every non-root pattern-end node has `length` equal to its trie
depth, and at index `i` every node on the failure chain of the scan node has
depth at most `i + 1`; hence `Filter` and `FilterWithWhitelist` return the same
text when the guard `(i - j) >= 0` is taken away and every write `runes[i-j]`
must hit an index of the slice. -/
theorem bounds_guard_holds (ord : ChildOrder) (P : List (List Char)) (T : List Char)
    (W : List Position) :
    ∃ ac out out0, loadWords ord P = some ac ∧
      (∀ (m : Nat) (p : List Char), m ≠ 0 → isEndOf ac.nodes m = true →
        walk ac.nodes 0 p = some m → lengthOf ac.nodes m = p.length) ∧
      (∀ i, i < T.length → ∃ s, scanNode ac.nodes T (i + 1) = some s ∧
        ∀ k t, failChain ac.nodes k s = some t →
          ∃ p, walk ac.nodes 0 p = some t ∧ p.length ≤ i + 1) ∧
      FilterWithWhitelist ac T W = some out ∧ FilterWithWhitelistStrict ac T W = some out ∧
      Filter ac T = some out0 ∧ FilterWithWhitelistStrict ac T [] = some out0 := by
  obtain ⟨ac, lab, h1, h2, _⟩ := loadWords_spec ord P
  obtain ⟨out, s1, _⟩ := FilterWithWhitelist_spec h2 T W
  obtain ⟨out0, s0, _⟩ := FilterWithWhitelist_spec h2 T []
  refine ⟨ac, out, out0, h1, ?_, ?_, s1, by rw [FilterWithWhitelistStrict_eq h2]; exact s1,
    by rw [Filter_eq]; exact s0, by rw [FilterWithWhitelistStrict_eq h2]; exact s0⟩
  · intro m p _ hend hw
    obtain ⟨hm, hl⟩ := (walk_root h2.trie.shape p m).1 hw
    rw [h2.trie.len m hm hend, hl]
  · intro i hi
    obtain ⟨s, a1, a2⟩ := scanNode_spec h2 T (i + 1) (by omega)
    refine ⟨s, a1, ?_⟩
    intro k t hk
    obtain ⟨t1, t2⟩ := failChain_depth h2 k s t a2.1 hk
    refine ⟨lab t, (walk_root h2.trie.shape _ _).2 ⟨t1, rfl⟩, ?_⟩
    have := a2.2.1.length_le
    rw [List.length_take] at this
    omega

end Sanae
